import Mathlib

/-!
# Verification of the archive-to-tree reconstruction algorithm

Shallow embedding of `parseZipAsTree` (zip parsing module of the repository)
and proofs about it.  The source builds, from a flat list of archive entries,
a root list `files`, a path-indexed `fileMap` and a path-indexed `folderMap`,
then sorts children and computes aggregate sizes.

Modelling conventions:
* JS objects used as dictionaries (`fileMap`, `folderMap`) are modelled as
  insertion-ordered association lists; `m[k] = v` keeps the position of an
  existing key and appends new keys, matching JS own-property order for the
  string keys used here.
* `entryName.split('/')` and `paths.join('/')` are modelled by `splitSlash`
  and `joinSlash` below, which implement exactly the JS semantics
  (`"".split('/') = [""]`, empty segments kept).
* Node's `path.basename` is modelled by `basename` (trailing separators
  stripped, then the last segment).
* The display-formatting collaborators (`prettyBytes`, `date-format`) are out
  of scope per the spec; folder aggregates keep the byte count that the code
  passes to `prettyBytes`, and the formatted strings / `modifyDateTime` of
  file nodes are omitted (no claim mentions them).
* `String.prototype.localeCompare` is modelled as code-point lexicographic
  three-way comparison.
* `Array.prototype.sort` with a consistent comparator is a stable sort; any
  two stable sorts for the same total preorder agree, so it is modelled by
  stable insertion sort with respect to `sortFiles a b ≤ 0`.
* The mutable, shared folder objects are modelled by keying: a child that is
  a synthesized folder is represented by `Node.folder path`, dereferenced
  through the current `folderMap`, which mirrors the pointer sharing of the
  source.  The recursive `sum` helper gets an explicit fuel bound, proved
  sufficient for the maps the builder produces.
-/

/-- JS `split('/')` on a character list: split at every `'/'`, keeping empty
segments; the empty list splits to `[[]]` (JS: `"".split('/') = [""]`). -/
def splitSlashList : List Char → List (List Char)
  | [] => [[]]
  | c :: cs =>
    if c = '/' then [] :: splitSlashList cs
    else
      match splitSlashList cs with
      | [] => [[c]]
      | s :: rest => (c :: s) :: rest

/-- JS `join('/')` on a list of character lists. -/
def joinSlashList : List (List Char) → List Char
  | [] => []
  | [s] => s
  | s :: rest => s ++ '/' :: joinSlashList rest

/-- JS `s.split('/')` for strings. -/
def splitSlash (s : String) : List String :=
  (splitSlashList s.data).map String.mk

/-- JS `paths.join('/')` for strings. -/
def joinSlash (l : List String) : String :=
  String.mk (joinSlashList (l.map String.data))

/-- Node `path.basename`: strip trailing separators, take the last segment
(`basename "a/b" = "b"`, `basename "a/" = "a"`, `basename "" = ""`). -/
def basename (p : String) : String :=
  match ((splitSlash p).reverse).dropWhile (fun s => s = "") with
  | [] => ""
  | x :: _ => x

/-- The archive header data carried by an entry (`header.size`,
`header.compressedSize`); time is omitted (formatting collaborator). -/
structure ZipHeader where
  size : Nat
  compressedSize : Nat
deriving DecidableEq, Repr

/-- An archive entry as delivered by the zip reader (`AdmZip` `ZipEntry`):
directory flag, final name, full slash-delimited path and optional header. -/
structure RawEntry where
  isDirectory : Bool
  name : String
  entryName : String
  header : Option ZipHeader
deriving DecidableEq, Repr

/-- The record the source builds for a non-directory origin: name, full path
and the raw byte counts copied out of the header (`origin.header?.size`,
`origin.header?.compressedSize`).  The `prettyBytes`/`format` display strings
it also carries are produced by out-of-scope formatting collaborators and are
omitted here. -/
structure FileNode where
  name : String
  entryName : String
  originFileSize : Option Nat
  originCompressedSize : Option Nat
deriving DecidableEq, Repr

/-- A node as it occurs in `files`, `fileMap` values and `children` lists:
either the copied record of a file origin, a directory origin inserted as-is,
or a reference to the synthesized folder object registered in `folderMap`
under `path` (the source shares that object by pointer; we key it). -/
inductive Node where
  | file (f : FileNode)
  | dirEntry (e : RawEntry)
  | folder (path : String)
deriving DecidableEq, Repr

/-- The synthesized folder object created at the single site
`folderMap[parentPath] = { isDirectory: true, children, entryName, name }`;
`fileSize`/`compressedSize` hold, once the finalize loop ran, the byte counts
passed to `prettyBytes`. -/
structure FolderData where
  isDirectory : Bool
  children : List Node
  entryName : String
  name : String
  fileSize : Option Nat
  compressedSize : Option Nat
deriving DecidableEq, Repr

/-- `entry.entryName`: a folder reference reads the `entryName` field of the
registered object, which is the key it was registered under. -/
def Node.entryName : Node → String
  | .file f => f.entryName
  | .dirEntry e => e.entryName
  | .folder p => p

/-- `entry.isDirectory` (synthesized folders are created with `true`). -/
def Node.isDirectory : Node → Bool
  | .file _ => false
  | .dirEntry e => e.isDirectory
  | .folder _ => true

/-- `entry.name`: a folder reference reads the `name` field of the registered
object, which is `basename` of its key and is never mutated. -/
def Node.name : Node → String
  | .file f => f.name
  | .dirEntry e => e.name
  | .folder p => basename p

/-- Dictionary lookup, `m[k]` (the stored values are objects, always truthy,
so the JS `if (folderMap[parentPath])` test is `lookupA ... ≠ none`). -/
def lookupA {β : Type} : List (String × β) → String → Option β
  | [], _ => none
  | (k, v) :: rest, key => if k = key then some v else lookupA rest key

/-- Dictionary update, `m[k] = v`: replace in place or append a new key. -/
def setA {β : Type} : List (String × β) → String → β → List (String × β)
  | [], key, v => [(key, v)]
  | (k, w) :: rest, key, v =>
    if k = key then (key, v) :: rest else (k, w) :: setA rest key v

/-- `Object.keys m` (insertion order of the association list). -/
def keysOf {β : Type} (m : List (String × β)) : List String :=
  m.map Prod.fst

/-- The mutable state of `parseZipAsTree` during the building passes. -/
structure ParseState where
  files : List Node
  fileMap : List (String × Node)
  folderMap : List (String × FolderData)
deriving DecidableEq, Repr

/-- The conversion at the top of the `parseFlatItems` loop body:
`origin.isDirectory ? origin : { ...copied file record }`. -/
def toNode (origin : RawEntry) : Node :=
  if origin.isDirectory then Node.dirEntry origin
  else Node.file
    { name := origin.name
      entryName := origin.entryName
      originFileSize := origin.header.map ZipHeader.size
      originCompressedSize := origin.header.map ZipHeader.compressedSize }

/-- The `paths` local of the loop body after its `pop()`:
`entry.entryName.split('/')` with the last element removed. -/
def parentSegs (s : String) : List String :=
  (splitSlash s).dropLast

/-- The `parentPath` local of the loop body: `paths.join('/')`. -/
def parentKey (s : String) : String :=
  joinSlash (parentSegs s)

/-- One iteration of the `parseFlatItems` loop, after the conversion:
split the path, drop the last segment; a root entry goes to `files` (and
`fileMap` when it is a file); otherwise the entry is pushed onto the children
of the registered parent folder (and recorded in `fileMap` when it is a
file), or a fresh folder object with the entry as only child is registered
under the parent path — note that in this last branch the source does not
record the file in `fileMap`. -/
def stepItem (st : ParseState) (entry : Node) : ParseState :=
  let paths := parentSegs entry.entryName
  if paths = [] then
    { st with
        files := st.files ++ [entry]
        fileMap :=
          if entry.isDirectory then st.fileMap
          else setA st.fileMap entry.entryName entry }
  else
    let parentPath := joinSlash paths
    match lookupA st.folderMap parentPath with
    | some fd =>
      { st with
          folderMap := setA st.folderMap parentPath
            { fd with children := fd.children ++ [entry] }
          fileMap :=
            if entry.isDirectory then st.fileMap
            else setA st.fileMap entry.entryName entry }
    | none =>
      { st with
          folderMap := setA st.folderMap parentPath
            { isDirectory := true
              children := [entry]
              entryName := parentPath
              name := basename parentPath
              fileSize := none
              compressedSize := none } }

/-- The `parseFlatItems` loop over a list of already-converted items. -/
def parseFlatItems (st : ParseState) (entrys : List Node) : ParseState :=
  entrys.foldl stepItem st

/-- Three-way code-point comparison of character lists. -/
def cmpChars : List Char → List Char → Int
  | [], [] => 0
  | [], _ :: _ => -1
  | _ :: _, [] => 1
  | a :: as, b :: bs => if a < b then -1 else if b < a then 1 else cmpChars as bs

/-- Modelled from the spec: the locale-aware string comparison collaborator
(`String.prototype.localeCompare`), modelled as code-point lexicographic
three-way comparison. -/
def localeCompare (a b : String) : Int :=
  cmpChars a.data b.data

/-- The `sortFiles` comparator: directories before files, then by name. -/
def sortFiles (a b : Node) : Int :=
  if a.isDirectory && b.isDirectory then localeCompare a.name b.name
  else if a.isDirectory then -1
  else if b.isDirectory then 1
  else localeCompare a.name b.name

/-- The total preorder induced by the comparator (`sortFiles a b ≤ 0`). -/
def sortFilesLe (a b : Node) : Prop :=
  sortFiles a b ≤ 0

instance : DecidableRel sortFilesLe :=
  fun a b => inferInstanceAs (Decidable (sortFiles a b ≤ 0))

/-- `Array.prototype.sort(sortFiles)`: a stable sort for the total preorder
`sortFilesLe`, modelled by stable insertion sort (stable sorts for the same
consistent comparator coincide). -/
def sortJs (l : List Node) : List Node :=
  List.insertionSort sortFilesLe l

/-- The contribution of one item to the JS `sum(array, prop)` helper:
`(item[prop] ?? 0) + sum(item.children, prop)`.  Only copied file records
carry `originFileSize`/`originCompressedSize`, and only synthesized folder
objects carry `children` (dereferenced through the current `folderMap`).
The fuel bounds the recursion depth; the JS recursion terminates because the
maps the builder produces are acyclic, and the fuel used below is proved
sufficient for them. -/
def nodeSum (sel : FileNode → Option Nat)
    (fm : List (String × FolderData)) : Nat → Node → Nat
  | 0, n =>
    match n with
    | .file f => (sel f).getD 0
    | .dirEntry _ => 0
    | .folder _ => 0
  | fuel + 1, n =>
    match n with
    | .file f => (sel f).getD 0
    | .dirEntry _ => 0
    | .folder p =>
      match lookupA fm p with
      | some fd => (fd.children.map (nodeSum sel fm fuel)).sum
      | none => 0

/-- The JS `sum(array, prop)` helper (a reduce of the item contributions). -/
def sumItems (sel : FileNode → Option Nat) (fm : List (String × FolderData))
    (fuel : Nat) (l : List Node) : Nat :=
  (l.map (nodeSum sel fm fuel)).sum

/-- Selector for `prop = 'originFileSize'`. -/
def rawSel (f : FileNode) : Option Nat :=
  f.originFileSize

/-- Selector for `prop = 'originCompressedSize'`. -/
def compSel (f : FileNode) : Option Nat :=
  f.originCompressedSize

/-- One iteration of the finalize loop `for (const key in folderMap)`:
sort the children in place, then store the two aggregates (we keep the byte
counts passed to `prettyBytes`).  The sums read the current map, in which
this folder's children were just replaced by their sorted version. -/
def finalizeStep (fm : List (String × FolderData)) (key : String) :
    List (String × FolderData) :=
  match lookupA fm key with
  | none => fm
  | some fd =>
    let sorted := sortJs fd.children
    let fm1 := setA fm key { fd with children := sorted }
    let raw := sumItems rawSel fm1 (fm1.length + 1) sorted
    let comp := sumItems compSel fm1 (fm1.length + 1) sorted
    setA fm1 key
      { fd with children := sorted, fileSize := some raw,
                compressedSize := some comp }

/-- The result record returned by `parseZipAsTree`. -/
structure ZipParseResult where
  files : List Node
  fileMap : List (String × Node)
  folderMap : List (String × FolderData)
deriving DecidableEq, Repr

/-- The aggregation/sorting phase: the `for (const key in folderMap)` loop
(over the keys present when the loop starts; the loop only reassigns values
of existing keys) followed by `files = files.sort(sortFiles)`. -/
def finalizePhase (r : ZipParseResult) : ZipParseResult :=
  { files := sortJs r.files
    fileMap := r.fileMap
    folderMap := (keysOf r.folderMap).foldl finalizeStep r.folderMap }

/-- `parseZipAsTree`: pass 1 over the converted archive entries, pass 2 over
the folder objects registered so far (`Object.keys(folderMap).map(...)` is
evaluated before the call, so folders created during pass 2 are not
reprocessed), then the finalize phase. -/
def parseZipAsTree (zipEntries : List RawEntry) : ZipParseResult :=
  let st0 : ParseState := { files := [], fileMap := [], folderMap := [] }
  let st1 := parseFlatItems st0 (zipEntries.map toNode)
  let st2 := parseFlatItems st1 (st1.folderMap.map (fun kv => Node.folder kv.1))
  finalizePhase
    { files := st2.files, fileMap := st2.fileMap, folderMap := st2.folderMap }

/-- Modelled from the spec: the file nodes reachable from a node through
`children` edges ("sum of `rawSize` over every FileNode reachable from D"),
with the same fuel convention as `nodeSum`. -/
def specReachableFiles (fm : List (String × FolderData)) :
    Nat → Node → List FileNode
  | 0, n =>
    match n with
    | .file f => [f]
    | .dirEntry _ => []
    | .folder _ => []
  | fuel + 1, n =>
    match n with
    | .file f => [f]
    | .dirEntry _ => []
    | .folder p =>
      match lookupA fm p with
      | some fd => (fd.children.map (specReachableFiles fm fuel)).flatten
      | none => []

/-! ## Lemmas about the split/join helpers -/

theorem splitSlashList_ne_nil (l : List Char) : splitSlashList l ≠ [] := by
  induction l with
  | nil => simp [splitSlashList]
  | cons c cs ih =>
    simp only [splitSlashList]
    split
    · simp
    · split
      · simp
      · simp

theorem noslash_of_mem_splitSlashList {l : List Char} {s : List Char}
    (hs : s ∈ splitSlashList l) : '/' ∉ s := by
  induction l generalizing s with
  | nil =>
    simp only [splitSlashList, List.mem_singleton] at hs
    subst hs; simp
  | cons c cs ih =>
    simp only [splitSlashList] at hs
    by_cases hc : c = '/'
    · rw [if_pos hc] at hs
      rcases List.mem_cons.1 hs with h | h
      · subst h; simp
      · exact ih h
    · rw [if_neg hc] at hs
      rcases hsplit : splitSlashList cs with _ | ⟨s0, rest⟩
      · exact absurd hsplit (splitSlashList_ne_nil cs)
      · rw [hsplit] at hs
        rcases List.mem_cons.1 hs with h | h
        · subst h
          intro hmem
          rcases List.mem_cons.1 hmem with h | h
          · exact hc h.symm
          · exact ih (hsplit ▸ List.mem_cons_self s0 rest) h
        · exact ih (hsplit ▸ List.mem_cons_of_mem s0 h)

theorem joinSlashList_cons {s : List Char} {rest : List (List Char)}
    (h : rest ≠ []) :
    joinSlashList (s :: rest) = s ++ '/' :: joinSlashList rest := by
  cases rest with
  | nil => exact absurd rfl h
  | cons t r => rfl

theorem joinSlashList_splitSlashList (l : List Char) :
    joinSlashList (splitSlashList l) = l := by
  induction l with
  | nil => rfl
  | cons c cs ih =>
    simp only [splitSlashList]
    by_cases hc : c = '/'
    · rw [if_pos hc, joinSlashList_cons (splitSlashList_ne_nil cs), ih, hc]
      rfl
    · rw [if_neg hc]
      rcases hsplit : splitSlashList cs with _ | ⟨s0, rest⟩
      · exact absurd hsplit (splitSlashList_ne_nil cs)
      · rw [hsplit] at ih
        simp only [hsplit]
        cases rest with
        | nil =>
          simp only [joinSlashList] at ih ⊢
          rw [ih]
        | cons t r =>
          rw [joinSlashList_cons (show (t :: r : List (List Char)) ≠ [] by simp)] at ih
          rw [joinSlashList_cons (show (t :: r : List (List Char)) ≠ [] by simp),
            List.cons_append, ih]

theorem splitSlashList_of_noslash {s : List Char} (h : '/' ∉ s) :
    splitSlashList s = [s] := by
  induction s with
  | nil => rfl
  | cons c cs ih =>
    have hc : c ≠ '/' := fun hc => h (hc ▸ List.mem_cons_self c cs)
    simp only [splitSlashList, if_neg hc]
    rw [ih (fun hm => h (List.mem_cons_of_mem c hm))]

theorem splitSlashList_append_slash_cons {s t : List Char} (h : '/' ∉ s) :
    splitSlashList (s ++ '/' :: t) = s :: splitSlashList t := by
  induction s with
  | nil => simp [splitSlashList]
  | cons c cs ih =>
    have hc : c ≠ '/' := fun hc => h (hc ▸ List.mem_cons_self c cs)
    simp only [List.cons_append, splitSlashList, if_neg hc, List.append_eq]
    rw [ih (fun hm => h (List.mem_cons_of_mem c hm))]

theorem splitSlashList_joinSlashList {L : List (List Char)} (hne : L ≠ [])
    (hs : ∀ s ∈ L, '/' ∉ s) :
    splitSlashList (joinSlashList L) = L := by
  induction L with
  | nil => exact absurd rfl hne
  | cons s rest ih =>
    cases rest with
    | nil =>
      simp only [joinSlashList]
      exact splitSlashList_of_noslash (hs s (List.mem_cons_self s []))
    | cons t r =>
      rw [joinSlashList_cons (by simp),
        splitSlashList_append_slash_cons (hs s (List.mem_cons_self s _)),
        ih (by simp) (fun x hx => hs x (List.mem_cons_of_mem s hx))]

theorem splitSlashList_append_slash (l : List Char) :
    splitSlashList (l ++ ['/']) = splitSlashList l ++ [[]] := by
  induction l with
  | nil => rfl
  | cons c cs ih =>
    by_cases hc : c = '/'
    · simp only [List.cons_append, splitSlashList, if_pos hc, List.append_eq, ih]
    · simp only [List.cons_append, splitSlashList, if_neg hc, List.append_eq, ih]
      rcases hsplit : splitSlashList cs with _ | ⟨s0, rest⟩
      · exact absurd hsplit (splitSlashList_ne_nil cs)
      · simp [hsplit]

theorem string_mk_data (s : String) : String.mk s.data = s := rfl

theorem data_string_mk (l : List Char) : (String.mk l).data = l := rfl

theorem splitSlash_ne_nil (s : String) : splitSlash s ≠ [] := by
  intro h
  exact splitSlashList_ne_nil s.data (by simpa [splitSlash] using h)

theorem noslash_of_mem_splitSlash {s x : String} (hx : x ∈ splitSlash s) :
    '/' ∉ x.data := by
  simp only [splitSlash, List.mem_map] at hx
  rcases hx with ⟨l, hl, rfl⟩
  exact noslash_of_mem_splitSlashList hl

theorem joinSlash_splitSlash (s : String) : joinSlash (splitSlash s) = s := by
  simp only [joinSlash, splitSlash, List.map_map]
  have : (String.data ∘ String.mk) = id := rfl
  rw [this, List.map_id, joinSlashList_splitSlashList]

theorem splitSlash_joinSlash {L : List String} (hne : L ≠ [])
    (hs : ∀ x ∈ L, '/' ∉ x.data) :
    splitSlash (joinSlash L) = L := by
  simp only [joinSlash, splitSlash, data_string_mk]
  rw [splitSlashList_joinSlashList (by simpa using hne)
    (by intro x hx; rcases List.mem_map.1 hx with ⟨y, hy, rfl⟩; exact hs y hy)]
  simp only [List.map_map]
  have : (String.mk ∘ String.data) = id := by
    funext x; rfl
  rw [this, List.map_id]

theorem splitSlash_append_slash (s : String) :
    splitSlash (s ++ "/") = splitSlash s ++ [""] := by
  have hdata : (s ++ "/").data = s.data ++ ['/'] := rfl
  simp only [splitSlash, hdata, splitSlashList_append_slash, List.map_append]
  rfl

/-! ## Lemmas about the dictionary operations -/

theorem lookupA_setA_self {β : Type} (m : List (String × β)) (key : String)
    (v : β) : lookupA (setA m key v) key = some v := by
  induction m with
  | nil => simp [setA, lookupA]
  | cons kv rest ih =>
    obtain ⟨k, w⟩ := kv
    by_cases hk : k = key
    · simp [setA, hk, lookupA]
    · simp [setA, hk, lookupA, ih]

theorem keysOf_cons {β : Type} (k : String) (v : β) (m : List (String × β)) :
    keysOf ((k, v) :: m) = k :: keysOf m := rfl

theorem lookupA_setA_ne {β : Type} (m : List (String × β)) {key k : String}
    (v : β) (hk : k ≠ key) : lookupA (setA m key v) k = lookupA m k := by
  have hk2 : key ≠ k := Ne.symm hk
  induction m with
  | nil => simp [setA, lookupA, hk2]
  | cons kv rest ih =>
    obtain ⟨k0, w⟩ := kv
    by_cases h0 : k0 = key
    · subst h0
      simp [setA, lookupA, hk2]
    · simp [setA, h0, lookupA, ih]

theorem mem_keysOf_iff_lookupA {β : Type} {m : List (String × β)}
    {k : String} : k ∈ keysOf m ↔ lookupA m k ≠ none := by
  induction m with
  | nil => simp [keysOf, lookupA]
  | cons kv rest ih =>
    obtain ⟨k0, w⟩ := kv
    by_cases h0 : k0 = k
    · simp [keysOf_cons, lookupA, h0]
    · simp only [keysOf_cons, List.mem_cons, lookupA, if_neg h0]
      constructor
      · rintro (h | h)
        · exact absurd h.symm h0
        · exact ih.1 h
      · intro h
        exact Or.inr (ih.2 h)

theorem lookupA_eq_none_of_not_mem {β : Type} {m : List (String × β)}
    {k : String} (h : k ∉ keysOf m) : lookupA m k = none := by
  by_contra hnone
  exact h (mem_keysOf_iff_lookupA.2 hnone)

theorem lookupA_isSome_of_mem {β : Type} {m : List (String × β)}
    {k : String} (h : k ∈ keysOf m) : ∃ v, lookupA m k = some v := by
  rcases hv : lookupA m k with _ | v
  · exact absurd hv (mem_keysOf_iff_lookupA.1 h)
  · exact ⟨v, rfl⟩

theorem keysOf_setA_of_mem {β : Type} {m : List (String × β)} {key : String}
    (v : β) (h : key ∈ keysOf m) : keysOf (setA m key v) = keysOf m := by
  induction m with
  | nil => simp [keysOf] at h
  | cons kv rest ih =>
    obtain ⟨k0, w⟩ := kv
    by_cases h0 : k0 = key
    · subst h0
      simp [setA, keysOf_cons]
    · have hmem : key ∈ keysOf rest := by
        rcases List.mem_cons.1 (by simpa [keysOf_cons] using h) with h1 | h1
        · exact absurd h1.symm h0
        · exact h1
      simp only [setA, if_neg h0, keysOf_cons, ih hmem]

theorem keysOf_setA_of_not_mem {β : Type} {m : List (String × β)}
    {key : String} (v : β) (h : key ∉ keysOf m) :
    keysOf (setA m key v) = keysOf m ++ [key] := by
  induction m with
  | nil => simp [setA, keysOf, keysOf_cons]
  | cons kv rest ih =>
    obtain ⟨k0, w⟩ := kv
    have h0 : k0 ≠ key := by
      intro h0
      exact h (by simp [keysOf_cons, h0])
    have hrest : key ∉ keysOf rest := by
      intro h1
      exact h (by simp [keysOf_cons, h1])
    simp only [setA, if_neg h0, keysOf_cons, ih hrest, List.cons_append]

theorem mem_keysOf_setA {β : Type} {m : List (String × β)} {key k : String}
    (v : β) : k ∈ keysOf (setA m key v) ↔ k ∈ keysOf m ∨ k = key := by
  by_cases h : key ∈ keysOf m
  · rw [keysOf_setA_of_mem v h]
    constructor
    · exact Or.inl
    · rintro (h1 | h1)
      · exact h1
      · exact h1 ▸ h
  · rw [keysOf_setA_of_not_mem v h]
    simp

theorem length_setA_of_mem {β : Type} {m : List (String × β)} {key : String}
    (v : β) (h : key ∈ keysOf m) : (setA m key v).length = m.length := by
  have h1 : (keysOf (setA m key v)).length = (keysOf m).length := by
    rw [keysOf_setA_of_mem v h]
  simpa [keysOf] using h1

theorem setA_eq_self {β : Type} {m : List (String × β)} {key : String}
    {v : β} (h : lookupA m key = some v) : setA m key v = m := by
  induction m with
  | nil => simp [lookupA] at h
  | cons kv rest ih =>
    obtain ⟨k0, w⟩ := kv
    by_cases h0 : k0 = key
    · subst h0
      have hv : w = v := by simpa [lookupA] using h
      subst hv
      simp [setA]
    · simp only [lookupA, if_neg h0] at h
      simp [setA, h0, ih h]

theorem nodup_keysOf_setA {β : Type} {m : List (String × β)} {key : String}
    (v : β) (h : (keysOf m).Nodup) : (keysOf (setA m key v)).Nodup := by
  by_cases hmem : key ∈ keysOf m
  · rw [keysOf_setA_of_mem v hmem]; exact h
  · rw [keysOf_setA_of_not_mem v hmem]
    refine List.Nodup.append h (List.nodup_singleton key) ?_
    intro a ha hb
    rw [List.mem_singleton] at hb
    exact hmem (hb ▸ ha)

/-! ## The comparator is a total preorder -/

theorem cmpChars_le_total (a b : List Char) :
    cmpChars a b ≤ 0 ∨ cmpChars b a ≤ 0 := by
  induction a generalizing b with
  | nil => left; cases b <;> simp [cmpChars]
  | cons x xs ih =>
    cases b with
    | nil => right; simp [cmpChars]
    | cons y ys =>
      by_cases hxy : x < y
      · left; simp [cmpChars, hxy]
      · by_cases hyx : y < x
        · right; simp [cmpChars, hyx]
        · rcases ih ys with h | h
          · left; simp [cmpChars, hxy, hyx, h]
          · right; simp [cmpChars, hxy, hyx, h]

theorem cmpChars_le_trans {a b c : List Char} (hab : cmpChars a b ≤ 0)
    (hbc : cmpChars b c ≤ 0) : cmpChars a c ≤ 0 := by
  induction a generalizing b c with
  | nil => cases c <;> simp [cmpChars]
  | cons x xs ih =>
    cases b with
    | nil => simp [cmpChars] at hab
    | cons y ys =>
      cases c with
      | nil => simp [cmpChars] at hbc
      | cons z zs =>
        by_cases hxy : x < y
        · by_cases hyz : y < z
          · simp [cmpChars, lt_trans hxy hyz]
          · by_cases hzy : z < y
            · simp [cmpChars, hyz, hzy] at hbc
            · have h : y = z := le_antisymm (not_lt.1 hzy) (not_lt.1 hyz)
              subst h
              simp [cmpChars, hxy]
        · by_cases hyx : y < x
          · simp [cmpChars, hxy, hyx] at hab
          · have h : x = y := le_antisymm (not_lt.1 hyx) (not_lt.1 hxy)
            subst h
            simp only [cmpChars, if_neg hxy, if_neg hyx] at hab
            by_cases hxz : x < z
            · simp [cmpChars, hxz]
            · by_cases hzx : z < x
              · simp [cmpChars, hxz, hzx] at hbc
              · have h : x = z := le_antisymm (not_lt.1 hzx) (not_lt.1 hxz)
                subst h
                simp only [cmpChars, if_neg hxz, if_neg hzx] at hbc ⊢
                exact ih hab hbc

theorem localeCompare_le_total (a b : String) :
    localeCompare a b ≤ 0 ∨ localeCompare b a ≤ 0 :=
  cmpChars_le_total a.data b.data

theorem localeCompare_le_trans {a b c : String} (hab : localeCompare a b ≤ 0)
    (hbc : localeCompare b c ≤ 0) : localeCompare a c ≤ 0 :=
  cmpChars_le_trans hab hbc

theorem sortFilesLe_iff (a b : Node) :
    sortFilesLe a b ↔
      (a.isDirectory = true ∧ b.isDirectory = true ∧
        localeCompare a.name b.name ≤ 0) ∨
      (a.isDirectory = true ∧ b.isDirectory = false) ∨
      (a.isDirectory = false ∧ b.isDirectory = false ∧
        localeCompare a.name b.name ≤ 0) := by
  unfold sortFilesLe sortFiles
  cases hda : a.isDirectory <;> cases hdb : b.isDirectory
  · simp
  · simp only [Bool.false_and, Bool.false_eq_true, if_false, if_true]
    constructor
    · intro h; omega
    · simp
  · simp
  · simp

instance : IsTotal Node sortFilesLe := by
  constructor
  intro a b
  rcases localeCompare_le_total a.name b.name with h | h <;>
    cases hda : a.isDirectory <;> cases hdb : b.isDirectory <;>
      simp [sortFilesLe_iff, hda, hdb, h]

instance : IsTrans Node sortFilesLe := by
  constructor
  intro a b c hab hbc
  rw [sortFilesLe_iff] at hab hbc ⊢
  rcases hab with ⟨ha, hb, h1⟩ | ⟨ha, hb⟩ | ⟨ha, hb, h1⟩ <;>
    rcases hbc with ⟨hb2, hc, h2⟩ | ⟨hb2, hc⟩ | ⟨hb2, hc, h2⟩ <;>
      simp_all
  · exact localeCompare_le_trans h1 h2
  · exact localeCompare_le_trans h1 h2

theorem sortJs_perm (l : List Node) : (sortJs l).Perm l :=
  List.perm_insertionSort sortFilesLe l

theorem sortJs_sorted (l : List Node) : (sortJs l).Pairwise sortFilesLe :=
  List.sorted_insertionSort sortFilesLe l

theorem sortJs_eq_of_sorted {l : List Node} (h : l.Pairwise sortFilesLe) :
    sortJs l = l :=
  List.Sorted.insertionSort_eq h

/-! ## Case analysis of one loop iteration -/

theorem lookupA_setA_cases {β : Type} {m : List (String × β)}
    {key k : String} {v w : β} (h : lookupA (setA m key v) k = some w) :
    (k = key ∧ w = v) ∨ (k ≠ key ∧ lookupA m k = some w) := by
  by_cases hk : k = key
  · subst hk
    rw [lookupA_setA_self] at h
    exact Or.inl ⟨rfl, (Option.some.injEq _ _ ▸ h).symm⟩
  · exact Or.inr ⟨hk, by rwa [lookupA_setA_ne _ _ hk] at h⟩

theorem stepItem_root {st : ParseState} {n : Node}
    (h : parentSegs n.entryName = []) :
    stepItem st n =
      { st with
          files := st.files ++ [n]
          fileMap :=
            if n.isDirectory then st.fileMap
            else setA st.fileMap n.entryName n } := by
  simp only [stepItem]
  rw [if_pos h]

theorem stepItem_push {st : ParseState} {n : Node} {fd : FolderData}
    (h : parentSegs n.entryName ≠ [])
    (hl : lookupA st.folderMap (parentKey n.entryName) = some fd) :
    stepItem st n =
      { st with
          folderMap := setA st.folderMap (parentKey n.entryName)
            { fd with children := fd.children ++ [n] }
          fileMap :=
            if n.isDirectory then st.fileMap
            else setA st.fileMap n.entryName n } := by
  simp only [stepItem]
  rw [if_neg h]
  simp only [parentKey] at hl
  rw [hl]
  rfl

theorem stepItem_create {st : ParseState} {n : Node}
    (h : parentSegs n.entryName ≠ [])
    (hl : lookupA st.folderMap (parentKey n.entryName) = none) :
    stepItem st n =
      { st with
          folderMap := setA st.folderMap (parentKey n.entryName)
            { isDirectory := true
              children := [n]
              entryName := parentKey n.entryName
              name := basename (parentKey n.entryName)
              fileSize := none
              compressedSize := none } } := by
  simp only [stepItem]
  rw [if_neg h]
  simp only [parentKey] at hl
  rw [hl]
  rfl

/-! ## Invariants of the building passes -/

theorem splitSlash_parentKey {s : String} (h : parentSegs s ≠ []) :
    splitSlash (parentKey s) = parentSegs s := by
  unfold parentKey
  refine splitSlash_joinSlash h (fun x hx => ?_)
  exact noslash_of_mem_splitSlash ((List.dropLast_sublist _).subset hx)

theorem mem_keysOf_folderMap_stepItem {st : ParseState} {n : Node}
    {k : String} :
    k ∈ keysOf (stepItem st n).folderMap ↔
      k ∈ keysOf st.folderMap ∨
        (parentSegs n.entryName ≠ [] ∧ k = parentKey n.entryName) := by
  by_cases h : parentSegs n.entryName = []
  · rw [stepItem_root h]
    simp [h]
  · rcases hl : lookupA st.folderMap (parentKey n.entryName) with _ | fd
    · rw [stepItem_create h hl]
      rw [mem_keysOf_setA]
      simp [h]
    · rw [stepItem_push h hl]
      have hmem : parentKey n.entryName ∈ keysOf st.folderMap :=
        mem_keysOf_iff_lookupA.2 (by rw [hl]; exact fun hc => Option.noConfusion hc)
      simp only [mem_keysOf_setA]
      constructor
      · rintro (h1 | h1)
        · exact Or.inl h1
        · exact Or.inr ⟨h, h1⟩
      · rintro (h1 | ⟨_, h1⟩)
        · exact Or.inl h1
        · exact Or.inr h1

theorem folderMap_keys_mono_step {st : ParseState} {n : Node} {k : String}
    (h : k ∈ keysOf st.folderMap) : k ∈ keysOf (stepItem st n).folderMap :=
  mem_keysOf_folderMap_stepItem.2 (Or.inl h)

theorem fileMap_keys_mono_step {st : ParseState} {n : Node} {k : String}
    (h : k ∈ keysOf st.fileMap) : k ∈ keysOf (stepItem st n).fileMap := by
  by_cases hseg : parentSegs n.entryName = []
  · rw [stepItem_root hseg]
    by_cases hd : n.isDirectory <;> simp [hd, mem_keysOf_setA, h]
  · rcases hl : lookupA st.folderMap (parentKey n.entryName) with _ | fd
    · rw [stepItem_create hseg hl]
      exact h
    · rw [stepItem_push hseg hl]
      by_cases hd : n.isDirectory <;> simp [hd, mem_keysOf_setA, h]

theorem fileMap_stepItem_of_dir {st : ParseState} {n : Node}
    (hd : n.isDirectory = true) : (stepItem st n).fileMap = st.fileMap := by
  by_cases hseg : parentSegs n.entryName = []
  · rw [stepItem_root hseg]
    simp [hd]
  · rcases hl : lookupA st.folderMap (parentKey n.entryName) with _ | fd
    · rw [stepItem_create hseg hl]
    · rw [stepItem_push hseg hl]
      simp [hd]

theorem mem_keysOf_fileMap_stepItem {st : ParseState} {n : Node}
    {k : String} :
    k ∈ keysOf (stepItem st n).fileMap ↔
      k ∈ keysOf st.fileMap ∨
        (n.isDirectory = false ∧ k = n.entryName ∧
          (parentSegs n.entryName = [] ∨
            lookupA st.folderMap (parentKey n.entryName) ≠ none)) := by
  by_cases hseg : parentSegs n.entryName = []
  · rw [stepItem_root hseg]
    rcases hd : n.isDirectory
    · simpa [hd, hseg] using mem_keysOf_setA _
    · simp [hd]
  · rcases hl : lookupA st.folderMap (parentKey n.entryName) with _ | fd
    · rw [stepItem_create hseg hl]
      simp [hseg, hl]
    · rw [stepItem_push hseg hl]
      rcases hd : n.isDirectory
      · simpa [hd, hseg, hl] using mem_keysOf_setA _
      · simp [hd]

theorem files_mono_step {st : ParseState} {n : Node} {x : Node}
    (h : x ∈ st.files) : x ∈ (stepItem st n).files := by
  by_cases hseg : parentSegs n.entryName = []
  · rw [stepItem_root hseg]
    simp [h]
  · rcases hl : lookupA st.folderMap (parentKey n.entryName) with _ | fd
    · rw [stepItem_create hseg hl]
      exact h
    · rw [stepItem_push hseg hl]
      exact h

theorem child_mem_step {st : ParseState} {n : Node} {t : String}
    {fd : FolderData} {x : Node} (hl : lookupA st.folderMap t = some fd)
    (hx : x ∈ fd.children) :
    ∃ fd2, lookupA (stepItem st n).folderMap t = some fd2 ∧
      x ∈ fd2.children := by
  by_cases hseg : parentSegs n.entryName = []
  · rw [stepItem_root hseg]
    exact ⟨fd, hl, hx⟩
  · rcases hl2 : lookupA st.folderMap (parentKey n.entryName) with _ | fd0
    · rw [stepItem_create hseg hl2]
      have ht : t ≠ parentKey n.entryName := by
        intro h; rw [h, hl2] at hl; exact Option.noConfusion hl
      exact ⟨fd, by rw [lookupA_setA_ne _ _ ht]; exact hl, hx⟩
    · rw [stepItem_push hseg hl2]
      by_cases ht : t = parentKey n.entryName
      · subst ht
        rw [hl] at hl2
        obtain rfl : fd0 = fd := (Option.some.injEq _ _ ▸ hl2.symm)
        exact ⟨_, lookupA_setA_self _ _ _,
          List.mem_append.2 (Or.inl hx)⟩
      · exact ⟨fd, by rw [lookupA_setA_ne _ _ ht]; exact hl, hx⟩

theorem step_child_self {st : ParseState} {n : Node}
    (h : parentSegs n.entryName ≠ []) :
    ∃ fd, lookupA (stepItem st n).folderMap (parentKey n.entryName) = some fd ∧
      n ∈ fd.children := by
  rcases hl : lookupA st.folderMap (parentKey n.entryName) with _ | fd0
  · rw [stepItem_create h hl]
    exact ⟨_, lookupA_setA_self _ _ _, by simp⟩
  · rw [stepItem_push h hl]
    exact ⟨_, lookupA_setA_self _ _ _, by simp⟩

/-- Every registered folder object is a synthesized node whose literal
fields record its own key: `isDirectory: true`, `entryName: parentPath`,
`name: basename(parentPath)`. -/
def FolderShape (fm : List (String × FolderData)) : Prop :=
  ∀ k fd, lookupA fm k = some fd →
    fd.isDirectory = true ∧ fd.entryName = k ∧ fd.name = basename k

theorem folderShape_step {st : ParseState} {n : Node}
    (h : FolderShape st.folderMap) : FolderShape (stepItem st n).folderMap := by
  by_cases hseg : parentSegs n.entryName = []
  · rw [stepItem_root hseg]
    exact h
  · rcases hl : lookupA st.folderMap (parentKey n.entryName) with _ | fd0
    · rw [stepItem_create hseg hl]
      intro k fd hk
      rcases lookupA_setA_cases hk with ⟨rfl, rfl⟩ | ⟨_, hk2⟩
      · exact ⟨rfl, rfl, rfl⟩
      · exact h _ _ hk2
    · rw [stepItem_push hseg hl]
      intro k fd hk
      rcases lookupA_setA_cases hk with ⟨rfl, rfl⟩ | ⟨_, hk2⟩
      · obtain ⟨h1, h2, h3⟩ := h _ _ hl
        exact ⟨h1, h2, h3⟩
      · exact h _ _ hk2

/-- Children that are folder references point at registered keys, one path
segment deeper than their parent (`splitSlash p = (splitSlash q).dropLast`);
this is what makes the `sum` recursion terminate. -/
def ChildInv (fm : List (String × FolderData)) : Prop :=
  ∀ p fd, lookupA fm p = some fd → ∀ q, Node.folder q ∈ fd.children →
    q ∈ keysOf fm ∧ splitSlash p = (splitSlash q).dropLast

theorem childInv_step {st : ParseState} {n : Node}
    (hci : ChildInv st.folderMap)
    (hn : ∀ q, n = Node.folder q → q ∈ keysOf st.folderMap) :
    ChildInv (stepItem st n).folderMap := by
  have hmono : ∀ k, k ∈ keysOf st.folderMap →
      k ∈ keysOf (stepItem st n).folderMap := fun k => folderMap_keys_mono_step
  by_cases hseg : parentSegs n.entryName = []
  · rw [stepItem_root hseg] at *
    exact hci
  · have hnq : ∀ q, n = Node.folder q →
        q ∈ keysOf (stepItem st n).folderMap ∧
          splitSlash (parentKey n.entryName) = (splitSlash q).dropLast := by
      intro q hq
      refine ⟨hmono q (hn q hq), ?_⟩
      have hqn : n.entryName = q := by rw [hq]; rfl
      rw [splitSlash_parentKey hseg, parentSegs, hqn]
    rcases hl : lookupA st.folderMap (parentKey n.entryName) with _ | fd0
    · intro p fd hp q hq
      rw [stepItem_create hseg hl] at hp
      rcases lookupA_setA_cases hp with ⟨rfl, rfl⟩ | ⟨_, hp2⟩
      · simp only [List.mem_singleton] at hq
        exact hnq q hq.symm
      · rcases hci _ _ hp2 q hq with ⟨h1, h2⟩
        exact ⟨hmono q h1, h2⟩
    · intro p fd hp q hq
      rw [stepItem_push hseg hl] at hp
      rcases lookupA_setA_cases hp with ⟨rfl, rfl⟩ | ⟨_, hp2⟩
      · simp only [List.mem_append, List.mem_singleton] at hq
        rcases hq with hq | hq
        · rcases hci _ _ hl q hq with ⟨h1, h2⟩
          exact ⟨hmono q h1, h2⟩
        · exact (hnq q hq.symm)
      · rcases hci _ _ hp2 q hq with ⟨h1, h2⟩
        exact ⟨hmono q h1, h2⟩

theorem nodup_folderMap_step {st : ParseState} {n : Node}
    (h : (keysOf st.folderMap).Nodup) :
    (keysOf (stepItem st n).folderMap).Nodup := by
  by_cases hseg : parentSegs n.entryName = []
  · rw [stepItem_root hseg]
    exact h
  · rcases hl : lookupA st.folderMap (parentKey n.entryName) with _ | fd0
    · rw [stepItem_create hseg hl]
      exact nodup_keysOf_setA _ h
    · rw [stepItem_push hseg hl]
      exact nodup_keysOf_setA _ h

theorem nodup_fileMap_step {st : ParseState} {n : Node}
    (h : (keysOf st.fileMap).Nodup) :
    (keysOf (stepItem st n).fileMap).Nodup := by
  by_cases hseg : parentSegs n.entryName = []
  · rw [stepItem_root hseg]
    by_cases hd : n.isDirectory <;> simp [hd]
    · exact h
    · exact nodup_keysOf_setA _ h
  · rcases hl : lookupA st.folderMap (parentKey n.entryName) with _ | fd0
    · rw [stepItem_create hseg hl]
      exact h
    · rw [stepItem_push hseg hl]
      by_cases hd : n.isDirectory <;> simp [hd]
      · exact h
      · exact nodup_keysOf_setA _ h

/-! ## Lifting the invariants over a whole pass -/

theorem parseFlatItems_nil (st : ParseState) : parseFlatItems st [] = st := rfl

theorem parseFlatItems_cons (st : ParseState) (n : Node) (items : List Node) :
    parseFlatItems st (n :: items) = parseFlatItems (stepItem st n) items := rfl

theorem folderMap_keys_mono_parse {st : ParseState} {items : List Node}
    {k : String} (h : k ∈ keysOf st.folderMap) :
    k ∈ keysOf (parseFlatItems st items).folderMap := by
  induction items generalizing st with
  | nil => exact h
  | cons n rest ih => exact ih (folderMap_keys_mono_step h)

theorem fileMap_keys_mono_parse {st : ParseState} {items : List Node}
    {k : String} (h : k ∈ keysOf st.fileMap) :
    k ∈ keysOf (parseFlatItems st items).fileMap := by
  induction items generalizing st with
  | nil => exact h
  | cons n rest ih => exact ih (fileMap_keys_mono_step h)

theorem files_mono_parse {st : ParseState} {items : List Node} {x : Node}
    (h : x ∈ st.files) : x ∈ (parseFlatItems st items).files := by
  induction items generalizing st with
  | nil => exact h
  | cons n rest ih => exact ih (files_mono_step h)

theorem mem_keysOf_folderMap_parse {st : ParseState} {items : List Node}
    {k : String} :
    k ∈ keysOf (parseFlatItems st items).folderMap ↔
      k ∈ keysOf st.folderMap ∨
        ∃ n ∈ items, parentSegs n.entryName ≠ [] ∧ k = parentKey n.entryName := by
  induction items generalizing st with
  | nil => simp [parseFlatItems_nil]
  | cons n rest ih =>
    rw [parseFlatItems_cons, ih, mem_keysOf_folderMap_stepItem]
    constructor
    · rintro ((h | h) | ⟨m, hm, h1, h2⟩)
      · exact Or.inl h
      · exact Or.inr ⟨n, List.mem_cons_self n rest, h⟩
      · exact Or.inr ⟨m, List.mem_cons_of_mem n hm, h1, h2⟩
    · rintro (h | ⟨m, hm, h1, h2⟩)
      · exact Or.inl (Or.inl h)
      · rcases List.mem_cons.1 hm with rfl | hm2
        · exact Or.inl (Or.inr ⟨h1, h2⟩)
        · exact Or.inr ⟨m, hm2, h1, h2⟩

theorem child_mem_parse {st : ParseState} {items : List Node} {t : String}
    {fd : FolderData} {x : Node} (hl : lookupA st.folderMap t = some fd)
    (hx : x ∈ fd.children) :
    ∃ fd2, lookupA (parseFlatItems st items).folderMap t = some fd2 ∧
      x ∈ fd2.children := by
  induction items generalizing st fd with
  | nil => exact ⟨fd, hl, hx⟩
  | cons n rest ih =>
    rcases @child_mem_step st n t fd x hl hx with ⟨fd1, hl1, hx1⟩
    exact ih hl1 hx1

theorem parse_child_self {st : ParseState} {items : List Node} {n : Node}
    (hn : n ∈ items) (hseg : parentSegs n.entryName ≠ []) :
    ∃ fd, lookupA (parseFlatItems st items).folderMap
        (parentKey n.entryName) = some fd ∧ n ∈ fd.children := by
  induction items generalizing st with
  | nil => cases hn
  | cons m rest ih =>
    rcases List.mem_cons.1 hn with rfl | hm
    · rw [parseFlatItems_cons]
      rcases @step_child_self st _ hseg with ⟨fd, hl, hx⟩
      exact child_mem_parse hl hx
    · exact ih hm

theorem folderShape_parse {st : ParseState} {items : List Node}
    (h : FolderShape st.folderMap) :
    FolderShape (parseFlatItems st items).folderMap := by
  induction items generalizing st with
  | nil => exact h
  | cons n rest ih => exact ih (folderShape_step h)

theorem childInv_parse {st : ParseState} {items : List Node}
    (hci : ChildInv st.folderMap)
    (hn : ∀ n ∈ items, ∀ q, n = Node.folder q → q ∈ keysOf st.folderMap) :
    ChildInv (parseFlatItems st items).folderMap := by
  induction items generalizing st with
  | nil => exact hci
  | cons n rest ih =>
    refine ih (childInv_step hci (hn n (List.mem_cons_self n rest))) ?_
    intro m hm q hq
    exact folderMap_keys_mono_step (hn m (List.mem_cons_of_mem n hm) q hq)

theorem nodup_folderMap_parse {st : ParseState} {items : List Node}
    (h : (keysOf st.folderMap).Nodup) :
    (keysOf (parseFlatItems st items).folderMap).Nodup := by
  induction items generalizing st with
  | nil => exact h
  | cons n rest ih => exact ih (nodup_folderMap_step h)

theorem nodup_fileMap_parse {st : ParseState} {items : List Node}
    (h : (keysOf st.fileMap).Nodup) :
    (keysOf (parseFlatItems st items).fileMap).Nodup := by
  induction items generalizing st with
  | nil => exact h
  | cons n rest ih => exact ih (nodup_fileMap_step h)

theorem fileMap_parse_of_dirs {st : ParseState} {items : List Node}
    (h : ∀ n ∈ items, n.isDirectory = true) :
    (parseFlatItems st items).fileMap = st.fileMap := by
  induction items generalizing st with
  | nil => rfl
  | cons n rest ih =>
    rw [parseFlatItems_cons,
      ih (fun m hm => h m (List.mem_cons_of_mem n hm)),
      fileMap_stepItem_of_dir (h n (List.mem_cons_self n rest))]

/-- Every `fileMap` key whose path is not a root path has its parent
registered in `folderMap` (the source only records a file in `fileMap` when
its parent folder already exists, or at root). -/
def FileParentInv (st : ParseState) : Prop :=
  ∀ k, k ∈ keysOf st.fileMap → parentSegs k ≠ [] →
    parentKey k ∈ keysOf st.folderMap

theorem fileParentInv_step {st : ParseState} {n : Node}
    (h : FileParentInv st) : FileParentInv (stepItem st n) := by
  intro k hk hseg
  rcases mem_keysOf_fileMap_stepItem.1 hk with hk2 | ⟨hd, rfl, hcase⟩
  · exact folderMap_keys_mono_step (h k hk2 hseg)
  · rcases hcase with hroot | hsome
    · exact absurd hroot hseg
    · rcases Option.ne_none_iff_exists.1 hsome with ⟨fd, hfd⟩
      exact folderMap_keys_mono_step (mem_keysOf_iff_lookupA.2 hsome)

theorem fileParentInv_parse {st : ParseState} {items : List Node}
    (h : FileParentInv st) : FileParentInv (parseFlatItems st items) := by
  induction items generalizing st with
  | nil => exact h
  | cons n rest ih => exact ih (fileParentInv_step h)

theorem parse_root_file_mem {st : ParseState} {items : List Node} {n : Node}
    (hn : n ∈ items) (hd : n.isDirectory = false)
    (hseg : parentSegs n.entryName = []) :
    n.entryName ∈ keysOf (parseFlatItems st items).fileMap := by
  induction items generalizing st with
  | nil => cases hn
  | cons m rest ih =>
    rcases List.mem_cons.1 hn with rfl | hm
    · rw [parseFlatItems_cons]
      exact fileMap_keys_mono_parse
        (mem_keysOf_fileMap_stepItem.2 (Or.inr ⟨hd, rfl, Or.inl hseg⟩))
    · exact ih hm

/-! ## The recursive sum: congruence and fuel sufficiency -/

/-- Maps with the same key sequence and, per key, the same children up to
permutation.  The recursive sums only depend on this data, which is what the
finalize loop preserves while it mutates the folder objects. -/
def EquivCh (fm fm' : List (String × FolderData)) : Prop :=
  keysOf fm = keysOf fm' ∧
    ∀ k fd, lookupA fm k = some fd →
      ∃ fd', lookupA fm' k = some fd' ∧ fd.children.Perm fd'.children

theorem equivCh_refl (fm : List (String × FolderData)) : EquivCh fm fm :=
  ⟨rfl, fun _ fd h => ⟨fd, h, List.Perm.refl _⟩⟩

theorem equivCh_trans {fm1 fm2 fm3 : List (String × FolderData)}
    (h12 : EquivCh fm1 fm2) (h23 : EquivCh fm2 fm3) : EquivCh fm1 fm3 := by
  refine ⟨h12.1.trans h23.1, fun k fd h => ?_⟩
  rcases h12.2 k fd h with ⟨fd2, h2, hp2⟩
  rcases h23.2 k fd2 h2 with ⟨fd3, h3, hp3⟩
  exact ⟨fd3, h3, hp2.trans hp3⟩

theorem nodeSum_file (sel : FileNode → Option Nat)
    (fm : List (String × FolderData)) (fuel : Nat) (f : FileNode) :
    nodeSum sel fm fuel (Node.file f) = (sel f).getD 0 := by
  cases fuel <;> rfl

theorem nodeSum_dirEntry (sel : FileNode → Option Nat)
    (fm : List (String × FolderData)) (fuel : Nat) (e : RawEntry) :
    nodeSum sel fm fuel (Node.dirEntry e) = 0 := by
  cases fuel <;> rfl

theorem nodeSum_congr {sel : FileNode → Option Nat}
    {fm fm' : List (String × FolderData)} (h : EquivCh fm fm') :
    ∀ fuel n, nodeSum sel fm fuel n = nodeSum sel fm' fuel n := by
  intro fuel
  induction fuel with
  | zero => intro n; cases n <;> rfl
  | succ fuel ih =>
    intro n
    cases n with
    | file f => rfl
    | dirEntry e => rfl
    | folder p =>
      rcases hl : lookupA fm p with _ | fd
      · have hl2 : lookupA fm' p = none := by
          apply lookupA_eq_none_of_not_mem
          rw [← h.1]
          exact fun hmem => (mem_keysOf_iff_lookupA.1 hmem) hl
        simp only [nodeSum, hl, hl2]
      · rcases h.2 p fd hl with ⟨fd', hl2, hperm⟩
        simp only [nodeSum, hl, hl2]
        calc (fd.children.map (nodeSum sel fm fuel)).sum
            = (fd.children.map (nodeSum sel fm' fuel)).sum := by
              rw [List.map_congr_left (fun x _ => ih x)]
          _ = (fd'.children.map (nodeSum sel fm' fuel)).sum :=
              (hperm.map _).sum_eq

theorem sumItems_congr {sel : FileNode → Option Nat}
    {fm fm' : List (String × FolderData)} (h : EquivCh fm fm') (fuel : Nat)
    {l l' : List Node} (hl : l.Perm l') :
    sumItems sel fm fuel l = sumItems sel fm' fuel l' := by
  unfold sumItems
  calc (l.map (nodeSum sel fm fuel)).sum
      = (l.map (nodeSum sel fm' fuel)).sum := by
        rw [List.map_congr_left (fun x _ => nodeSum_congr h fuel x)]
    _ = (l'.map (nodeSum sel fm' fuel)).sum := (hl.map _).sum_eq

theorem nodeSum_eq_reach (sel : FileNode → Option Nat)
    (fm : List (String × FolderData)) :
    ∀ fuel n, nodeSum sel fm fuel n =
      ((specReachableFiles fm fuel n).map (fun f => (sel f).getD 0)).sum := by
  intro fuel
  induction fuel with
  | zero => intro n; cases n <;> simp [nodeSum, specReachableFiles]
  | succ fuel ih =>
    intro n
    cases n with
    | file f => simp [nodeSum, specReachableFiles]
    | dirEntry e => simp [nodeSum, specReachableFiles]
    | folder p =>
      rcases hl : lookupA fm p with _ | fd
      · simp [nodeSum, specReachableFiles, hl]
      · simp only [nodeSum, specReachableFiles, hl]
        rw [List.map_flatten, List.sum_flatten, List.map_map, List.map_map]
        exact congrArg List.sum (List.map_congr_left (fun x _ => ih x))

/-- The number of path segments of a key. -/
def pathDepth (s : String) : Nat :=
  (splitSlash s).length

/-- How many keys lie strictly deeper than `d`; the termination measure of
the recursive sum on the maps the builder produces. -/
def countDeeper (fm : List (String × FolderData)) (d : Nat) : Nat :=
  ((keysOf fm).filter (fun k => d < pathDepth k)).length

theorem sublist_length_lt {α : Type} {s t : List α} (hsub : s.Sublist t)
    {a : α} (hat : a ∈ t) (has : a ∉ s) : s.length < t.length := by
  induction hsub with
  | slnil => cases hat
  | cons b hsub ih =>
    rcases List.mem_cons.1 hat with rfl | hat2
    · exact Nat.lt_succ_of_le hsub.length_le
    · exact Nat.lt_succ_of_lt (ih hat2 has)
  | cons₂ b hsub ih =>
    rcases List.mem_cons.1 hat with rfl | hat2
    · exact absurd (List.mem_cons_self _ _) has
    · have has2 : a ∉ _ := fun h => has (List.mem_cons_of_mem b h)
      exact Nat.succ_lt_succ (ih hat2 has2)

theorem countDeeper_lt {fm : List (String × FolderData)} {q : String}
    {d : Nat} (hq : q ∈ keysOf fm) (hdq : d < pathDepth q) :
    countDeeper fm (pathDepth q) < countDeeper fm d := by
  refine @sublist_length_lt String _ _
    (List.monotone_filter_right _ (fun k hk => ?_)) q ?_ ?_
  · rw [decide_eq_true_eq] at hk ⊢
    exact lt_trans hdq hk
  · exact List.mem_filter.2 ⟨hq, by rw [decide_eq_true_eq]; exact hdq⟩
  · intro hmem
    have := (List.mem_filter.1 hmem).2
    rw [decide_eq_true_eq] at this
    exact lt_irrefl _ this

theorem pathDepth_of_child {p q : String}
    (h : splitSlash p = (splitSlash q).dropLast) :
    pathDepth q = pathDepth p + 1 := by
  have hne : splitSlash q ≠ [] := splitSlash_ne_nil q
  have hlen : (splitSlash p).length = (splitSlash q).length - 1 := by
    rw [h, List.length_dropLast]
  rcases hq : splitSlash q with _ | ⟨x, xs⟩
  · exact absurd hq hne
  · unfold pathDepth
    rw [hq] at hlen ⊢
    simp only [List.length_cons] at hlen ⊢
    omega

theorem nodeSum_fuel_congr {sel : FileNode → Option Nat}
    {fm : List (String × FolderData)} (hci : ChildInv fm) :
    ∀ c d n, countDeeper fm d ≤ c →
      (∀ q, n = Node.folder q → q ∈ keysOf fm ∧ d < pathDepth q) →
      ∀ f1 f2, c < f1 → c < f2 →
        nodeSum sel fm f1 n = nodeSum sel fm f2 n := by
  intro c
  induction c using Nat.strong_induction_on with
  | _ c ihc =>
    intro d n hcount hn f1 f2 hf1 hf2
    rcases f1 with _ | f1
    · omega
    rcases f2 with _ | f2
    · omega
    cases n with
    | file f => rw [nodeSum_file, nodeSum_file]
    | dirEntry e => rw [nodeSum_dirEntry, nodeSum_dirEntry]
    | folder q =>
      rcases hn q rfl with ⟨hqmem, hqd⟩
      rcases hl : lookupA fm q with _ | fd
      · simp only [nodeSum, hl]
      · simp only [nodeSum, hl]
        have hlt : countDeeper fm (pathDepth q) < countDeeper fm d :=
          countDeeper_lt hqmem hqd
        refine congrArg List.sum (List.map_congr_left (fun x hx => ?_))
        refine ihc (countDeeper fm (pathDepth q)) (by omega) (pathDepth q) x
          le_rfl (fun q2 hq2 => ?_) f1 f2 (by omega) (by omega)
        subst hq2
        rcases hci q fd hl q2 hx with ⟨hmem2, hsplit2⟩
        exact ⟨hmem2, by rw [pathDepth_of_child hsplit2]; omega⟩

theorem sumItems_fuel_congr {sel : FileNode → Option Nat}
    {fm : List (String × FolderData)} (hci : ChildInv fm) {k : String}
    {fd : FolderData} (hl : lookupA fm k = some fd) {f1 f2 : Nat}
    (h1 : fm.length < f1) (h2 : fm.length < f2) :
    sumItems sel fm f1 fd.children = sumItems sel fm f2 fd.children := by
  unfold sumItems
  refine congrArg List.sum (List.map_congr_left (fun x hx => ?_))
  have hcount : countDeeper fm (pathDepth k) ≤ fm.length := by
    have := List.length_filter_le
      (fun s => decide (pathDepth k < pathDepth s)) (keysOf fm)
    unfold countDeeper
    simp only [keysOf, List.length_map] at this ⊢
    exact this
  refine nodeSum_fuel_congr hci (countDeeper fm (pathDepth k)) (pathDepth k) x
    le_rfl (fun q hq => ?_) f1 f2 (by omega) (by omega)
  subst hq
  rcases hci k fd hl q hx with ⟨hmem, hsplit⟩
  exact ⟨hmem, by rw [pathDepth_of_child hsplit]; omega⟩

/-! ## The finalize loop -/

theorem finalizeStep_keysOf (fm : List (String × FolderData)) (k : String) :
    keysOf (finalizeStep fm k) = keysOf fm := by
  unfold finalizeStep
  rcases hl : lookupA fm k with _ | fd
  · rfl
  · have hk : k ∈ keysOf fm :=
      mem_keysOf_iff_lookupA.2 (by rw [hl]; exact fun h => Option.noConfusion h)
    have hk1 : k ∈ keysOf (setA fm k { fd with children := sortJs fd.children }) := by
      rw [keysOf_setA_of_mem _ hk]
      exact hk
    rw [keysOf_setA_of_mem _ hk1, keysOf_setA_of_mem _ hk]

theorem finalizeStep_length (fm : List (String × FolderData)) (k : String) :
    (finalizeStep fm k).length = fm.length := by
  have h := finalizeStep_keysOf fm k
  have h1 : (keysOf (finalizeStep fm k)).length = (keysOf fm).length := by
    rw [h]
  simpa [keysOf] using h1

theorem finalizeStep_lookup_ne {fm : List (String × FolderData)}
    {k k' : String} (hne : k ≠ k') :
    lookupA (finalizeStep fm k') k = lookupA fm k := by
  unfold finalizeStep
  rcases hl : lookupA fm k' with _ | fd
  · rfl
  · rw [lookupA_setA_ne _ _ hne, lookupA_setA_ne _ _ hne]

theorem finalizeStep_lookup_self {fm : List (String × FolderData)}
    {k : String} {fd : FolderData} (hl : lookupA fm k = some fd) :
    lookupA (finalizeStep fm k) k =
      some { fd with
          children := sortJs fd.children
          fileSize := some (sumItems rawSel
            (setA fm k { fd with children := sortJs fd.children })
            ((setA fm k { fd with children := sortJs fd.children }).length + 1)
            (sortJs fd.children))
          compressedSize := some (sumItems compSel
            (setA fm k { fd with children := sortJs fd.children })
            ((setA fm k { fd with children := sortJs fd.children }).length + 1)
            (sortJs fd.children)) } := by
  unfold finalizeStep
  rw [hl]
  exact lookupA_setA_self _ _ _

theorem equivCh_finalizeStep (fm : List (String × FolderData)) (k : String) :
    EquivCh fm (finalizeStep fm k) := by
  refine ⟨(finalizeStep_keysOf fm k).symm, fun k2 fd2 hl2 => ?_⟩
  by_cases hne : k2 = k
  · subst hne
    exact ⟨_, finalizeStep_lookup_self hl2, (sortJs_perm fd2.children).symm⟩
  · exact ⟨fd2, by rw [finalizeStep_lookup_ne hne]; exact hl2, List.Perm.refl _⟩

/-- The facts the finalize loop establishes for one key: sorted children and
the two stored aggregates equal to the recursive sums over the current map. -/
def AggFacts (fm : List (String × FolderData)) (k : String) : Prop :=
  ∃ fd, lookupA fm k = some fd ∧
    fd.children.Pairwise sortFilesLe ∧
    fd.fileSize = some (sumItems rawSel fm (fm.length + 1) fd.children) ∧
    fd.compressedSize = some (sumItems compSel fm (fm.length + 1) fd.children)

theorem aggFacts_finalizeStep {fm : List (String × FolderData)} {k : String}
    (hk : k ∈ keysOf fm) : AggFacts (finalizeStep fm k) k := by
  rcases lookupA_isSome_of_mem hk with ⟨fd, hl⟩
  have hk1 : k ∈ keysOf (setA fm k { fd with children := sortJs fd.children }) := by
    rw [keysOf_setA_of_mem _ hk]
    exact hk
  have hstep : finalizeStep fm k =
      setA (setA fm k { fd with children := sortJs fd.children }) k
        { fd with
            children := sortJs fd.children
            fileSize := some (sumItems rawSel
              (setA fm k { fd with children := sortJs fd.children })
              ((setA fm k { fd with children := sortJs fd.children }).length + 1)
              (sortJs fd.children))
            compressedSize := some (sumItems compSel
              (setA fm k { fd with children := sortJs fd.children })
              ((setA fm k { fd with children := sortJs fd.children }).length + 1)
              (sortJs fd.children)) } := by
    unfold finalizeStep
    rw [hl]
  have hequiv : EquivCh (setA fm k { fd with children := sortJs fd.children })
      (finalizeStep fm k) := by
    rw [hstep]
    refine ⟨(keysOf_setA_of_mem _ hk1).symm, fun k2 fd2 hl2 => ?_⟩
    by_cases hne : k2 = k
    · subst hne
      rw [lookupA_setA_self] at hl2
      obtain rfl := Option.some.inj hl2
      exact ⟨_, lookupA_setA_self _ _ _, List.Perm.refl _⟩
    · exact ⟨fd2, by rw [lookupA_setA_ne _ _ hne]; exact hl2, List.Perm.refl _⟩
  have hlen : (finalizeStep fm k).length =
      (setA fm k { fd with children := sortJs fd.children }).length := by
    rw [hstep]
    exact length_setA_of_mem _ hk1
  refine ⟨_, finalizeStep_lookup_self hl, sortJs_sorted fd.children, ?_, ?_⟩
  · show some (sumItems rawSel
        (setA fm k { fd with children := sortJs fd.children })
        ((setA fm k { fd with children := sortJs fd.children }).length + 1)
        (sortJs fd.children)) =
      some (sumItems rawSel (finalizeStep fm k)
        ((finalizeStep fm k).length + 1) (sortJs fd.children))
    rw [hlen, sumItems_congr hequiv _ (List.Perm.refl (sortJs fd.children))]
  · show some (sumItems compSel
        (setA fm k { fd with children := sortJs fd.children })
        ((setA fm k { fd with children := sortJs fd.children }).length + 1)
        (sortJs fd.children)) =
      some (sumItems compSel (finalizeStep fm k)
        ((finalizeStep fm k).length + 1) (sortJs fd.children))
    rw [hlen, sumItems_congr hequiv _ (List.Perm.refl (sortJs fd.children))]

theorem aggFacts_preserved {fm : List (String × FolderData)} {k k' : String}
    (hne : k ≠ k') (h : AggFacts fm k) : AggFacts (finalizeStep fm k') k := by
  rcases h with ⟨fd, hl, hsort, hraw, hcomp⟩
  have hev : EquivCh fm (finalizeStep fm k') := equivCh_finalizeStep fm k'
  have hlen : (finalizeStep fm k').length = fm.length := finalizeStep_length fm k'
  refine ⟨fd, by rw [finalizeStep_lookup_ne hne]; exact hl, hsort, ?_, ?_⟩
  · rw [hraw, hlen, sumItems_congr hev (fm.length + 1) (List.Perm.refl fd.children)]
  · rw [hcomp, hlen, sumItems_congr hev (fm.length + 1) (List.Perm.refl fd.children)]

theorem aggFacts_fold_preserved {k : String} :
    ∀ (ks : List String) (fm : List (String × FolderData)), k ∉ ks →
      AggFacts fm k → AggFacts (ks.foldl finalizeStep fm) k := by
  intro ks
  induction ks with
  | nil => exact fun fm _ h => h
  | cons k' rest ih =>
    intro fm hk h
    have h1 : k ≠ k' := fun hkk => hk (hkk ▸ List.mem_cons_self k' rest)
    exact ih _ (fun hm => hk (List.mem_cons_of_mem k' hm))
      (aggFacts_preserved h1 h)

theorem finalize_fold :
    ∀ (ks : List String) (fm : List (String × FolderData)), ks.Nodup →
      (∀ k ∈ ks, k ∈ keysOf fm) →
      keysOf (ks.foldl finalizeStep fm) = keysOf fm ∧
        EquivCh fm (ks.foldl finalizeStep fm) ∧
        ∀ k ∈ ks, AggFacts (ks.foldl finalizeStep fm) k := by
  intro ks
  induction ks with
  | nil => exact fun fm _ _ => ⟨rfl, equivCh_refl fm, by simp⟩
  | cons k rest ih =>
    intro fm hnd hmem
    have hkfm : k ∈ keysOf fm := hmem k (List.mem_cons_self k rest)
    have hmem1 : ∀ k' ∈ rest, k' ∈ keysOf (finalizeStep fm k) := by
      intro k' hk'
      rw [finalizeStep_keysOf]
      exact hmem k' (List.mem_cons_of_mem k hk')
    rcases ih (finalizeStep fm k) (List.Nodup.of_cons hnd) hmem1 with
      ⟨hkeys, hev, hfacts⟩
    refine ⟨?_, ?_, ?_⟩
    · show keysOf (rest.foldl finalizeStep (finalizeStep fm k)) = keysOf fm
      rw [hkeys, finalizeStep_keysOf]
    · exact equivCh_trans (equivCh_finalizeStep fm k) hev
    · intro k' hk'
      rcases List.mem_cons.1 hk' with rfl | hk2
      · have hknotin : k' ∉ rest := (List.nodup_cons.1 hnd).1
        exact aggFacts_fold_preserved rest _ hknotin (aggFacts_finalizeStep hkfm)
      · exact hfacts k' hk2

/-! ## Facts about the completed parse -/

/-- The state after the first pass (`parseFlatItems(zipEntries)`). -/
def pass1 (zipEntries : List RawEntry) : ParseState :=
  parseFlatItems { files := [], fileMap := [], folderMap := [] }
    (zipEntries.map toNode)

/-- The state after the second pass
(`parseFlatItems(Object.keys(folderMap).map(k => folderMap[k]))`). -/
def pass2 (zipEntries : List RawEntry) : ParseState :=
  parseFlatItems (pass1 zipEntries)
    ((pass1 zipEntries).folderMap.map (fun kv => Node.folder kv.1))

theorem parseZipAsTree_def (zipEntries : List RawEntry) :
    parseZipAsTree zipEntries =
      finalizePhase
        { files := (pass2 zipEntries).files
          fileMap := (pass2 zipEntries).fileMap
          folderMap := (pass2 zipEntries).folderMap } := rfl

theorem toNode_entryName (e : RawEntry) : (toNode e).entryName = e.entryName := by
  unfold toNode
  by_cases h : e.isDirectory <;> simp [h, Node.entryName]

theorem toNode_ne_folder (e : RawEntry) (q : String) :
    toNode e ≠ Node.folder q := by
  unfold toNode
  by_cases h : e.isDirectory <;> simp [h]

theorem toNode_of_dir {e : RawEntry} (h : e.isDirectory = true) :
    toNode e = Node.dirEntry e := by
  unfold toNode
  rw [if_pos h]

theorem pass2_folderShape (zipEntries : List RawEntry) :
    FolderShape (pass2 zipEntries).folderMap := by
  apply folderShape_parse
  apply folderShape_parse
  intro k fd h
  exact absurd h (by simp [lookupA])

theorem pass2_childInv (zipEntries : List RawEntry) :
    ChildInv (pass2 zipEntries).folderMap := by
  apply childInv_parse
  · apply childInv_parse
    · intro p fd h
      exact absurd h (by simp [lookupA])
    · intro n hn q hq
      rcases List.mem_map.1 hn with ⟨e, _, rfl⟩
      exact absurd hq (toNode_ne_folder e q)
  · intro n hn q hq
    rcases List.mem_map.1 hn with ⟨kv, hkv, rfl⟩
    obtain rfl : kv.1 = q := by
      have := congrArg Node.entryName hq
      simpa [Node.entryName] using this
    exact List.mem_map.2 ⟨kv, hkv, rfl⟩

theorem pass2_nodup_folderMap (zipEntries : List RawEntry) :
    (keysOf (pass2 zipEntries).folderMap).Nodup := by
  apply nodup_folderMap_parse
  apply nodup_folderMap_parse
  simp [keysOf]

theorem pass2_nodup_fileMap (zipEntries : List RawEntry) :
    (keysOf (pass2 zipEntries).fileMap).Nodup := by
  apply nodup_fileMap_parse
  apply nodup_fileMap_parse
  simp [keysOf]

theorem pass2_fileMap (zipEntries : List RawEntry) :
    (pass2 zipEntries).fileMap = (pass1 zipEntries).fileMap := by
  apply fileMap_parse_of_dirs
  intro n hn
  rcases List.mem_map.1 hn with ⟨kv, _, rfl⟩
  rfl

theorem result_folderMap_def (zipEntries : List RawEntry) :
    (parseZipAsTree zipEntries).folderMap =
      (keysOf (pass2 zipEntries).folderMap).foldl finalizeStep
        (pass2 zipEntries).folderMap := rfl

theorem result_fileMap_def (zipEntries : List RawEntry) :
    (parseZipAsTree zipEntries).fileMap = (pass2 zipEntries).fileMap := rfl

theorem result_files_def (zipEntries : List RawEntry) :
    (parseZipAsTree zipEntries).files = sortJs (pass2 zipEntries).files := rfl

theorem result_finalize_facts (zipEntries : List RawEntry) :
    keysOf (parseZipAsTree zipEntries).folderMap =
        keysOf (pass2 zipEntries).folderMap ∧
      EquivCh (pass2 zipEntries).folderMap
        (parseZipAsTree zipEntries).folderMap ∧
      ∀ k ∈ keysOf (pass2 zipEntries).folderMap,
        AggFacts (parseZipAsTree zipEntries).folderMap k := by
  rw [result_folderMap_def]
  exact finalize_fold (keysOf (pass2 zipEntries).folderMap)
    (pass2 zipEntries).folderMap (pass2_nodup_folderMap zipEntries)
    (fun k hk => hk)

theorem childInv_of_equivCh {fm fm' : List (String × FolderData)}
    (hev : EquivCh fm fm') (hci : ChildInv fm) : ChildInv fm' := by
  intro p fd' hl' q hq
  have hpmem : p ∈ keysOf fm := by
    rw [hev.1]
    exact mem_keysOf_iff_lookupA.2 (by rw [hl']; exact fun h => Option.noConfusion h)
  rcases lookupA_isSome_of_mem hpmem with ⟨fd, hl⟩
  rcases hev.2 p fd hl with ⟨fd2, hl2, hperm⟩
  rw [hl'] at hl2
  obtain rfl : fd2 = fd' := (Option.some.inj hl2).symm
  have hq2 : Node.folder q ∈ fd.children := (hperm.mem_iff).2 hq
  rcases hci p fd hl q hq2 with ⟨hmem, hsplit⟩
  exact ⟨hev.1 ▸ hmem, hsplit⟩

theorem result_childInv (zipEntries : List RawEntry) :
    ChildInv (parseZipAsTree zipEntries).folderMap :=
  childInv_of_equivCh (result_finalize_facts zipEntries).2.1
    (pass2_childInv zipEntries)

theorem folderShape_finalizeStep {fm : List (String × FolderData)}
    {k : String} (h : FolderShape fm) : FolderShape (finalizeStep fm k) := by
  intro k2 fd2 hl2
  by_cases hne : k2 = k
  · subst hne
    rcases hl : lookupA fm k2 with _ | fd
    · unfold finalizeStep at hl2
      rw [hl] at hl2
      exact h _ _ hl2
    · rw [finalizeStep_lookup_self hl] at hl2
      obtain rfl : fd2 = _ := (Option.some.inj hl2).symm
      obtain ⟨h1, h2, h3⟩ := h _ _ hl
      exact ⟨h1, h2, h3⟩
  · rw [finalizeStep_lookup_ne hne] at hl2
    exact h _ _ hl2

theorem folderShape_fold {fm : List (String × FolderData)}
    (h : FolderShape fm) (ks : List String) :
    FolderShape (ks.foldl finalizeStep fm) := by
  induction ks generalizing fm with
  | nil => exact h
  | cons k rest ih => exact ih (folderShape_finalizeStep h)

theorem result_folderShape (zipEntries : List RawEntry) :
    FolderShape (parseZipAsTree zipEntries).folderMap := by
  rw [result_folderMap_def]
  exact folderShape_fold (pass2_folderShape zipEntries) _

theorem result_aggFacts {zipEntries : List RawEntry} {k : String}
    {fd : FolderData}
    (hl : lookupA (parseZipAsTree zipEntries).folderMap k = some fd) :
    fd.children.Pairwise sortFilesLe ∧
      fd.fileSize = some (sumItems rawSel (parseZipAsTree zipEntries).folderMap
        ((parseZipAsTree zipEntries).folderMap.length + 1) fd.children) ∧
      fd.compressedSize = some (sumItems compSel (parseZipAsTree zipEntries).folderMap
        ((parseZipAsTree zipEntries).folderMap.length + 1) fd.children) := by
  have hk : k ∈ keysOf (pass2 zipEntries).folderMap := by
    rw [← (result_finalize_facts zipEntries).1]
    exact mem_keysOf_iff_lookupA.2 (by rw [hl]; exact fun h => Option.noConfusion h)
  rcases (result_finalize_facts zipEntries).2.2 k hk with ⟨fd0, hl0, hs, hr, hc⟩
  rw [hl] at hl0
  obtain rfl : fd0 = fd := (Option.some.inj hl0).symm
  exact ⟨hs, hr, hc⟩

theorem toNode_isDirectory (e : RawEntry) :
    (toNode e).isDirectory = e.isDirectory := by
  unfold toNode
  by_cases h : e.isDirectory <;> simp [h, Node.isDirectory]

theorem mem_keysOf_pass1_folderMap {zipEntries : List RawEntry} {k : String} :
    k ∈ keysOf (pass1 zipEntries).folderMap ↔
      ∃ en ∈ zipEntries, parentSegs en.entryName ≠ [] ∧
        k = parentKey en.entryName := by
  unfold pass1
  rw [mem_keysOf_folderMap_parse]
  constructor
  · rintro (h | ⟨n, hn, h1, h2⟩)
    · simp [keysOf] at h
    · rcases List.mem_map.1 hn with ⟨en, hen, rfl⟩
      rw [toNode_entryName] at h1 h2
      exact ⟨en, hen, h1, h2⟩
  · rintro ⟨en, hen, h1, h2⟩
    refine Or.inr ⟨toNode en, List.mem_map.2 ⟨en, hen, rfl⟩, ?_, ?_⟩
    · rw [toNode_entryName]; exact h1
    · rw [toNode_entryName]; exact h2

theorem mem_keysOf_pass2_folderMap {zipEntries : List RawEntry} {k : String} :
    k ∈ keysOf (pass2 zipEntries).folderMap ↔
      k ∈ keysOf (pass1 zipEntries).folderMap ∨
        ∃ q ∈ keysOf (pass1 zipEntries).folderMap,
          parentSegs q ≠ [] ∧ k = parentKey q := by
  unfold pass2
  rw [mem_keysOf_folderMap_parse]
  constructor
  · rintro (h | ⟨n, hn, h1, h2⟩)
    · exact Or.inl h
    · rcases List.mem_map.1 hn with ⟨kv, hkv, rfl⟩
      refine Or.inr ⟨kv.1, List.mem_map.2 ⟨kv, hkv, rfl⟩, ?_, ?_⟩
      · exact h1
      · exact h2
  · rintro (h | ⟨q, hq, h1, h2⟩)
    · exact Or.inl h
    · rcases List.mem_map.1 hq with ⟨kv, hkv, rfl⟩
      exact Or.inr ⟨Node.folder kv.1,
        List.mem_map.2 ⟨kv, hkv, rfl⟩, h1, h2⟩

theorem mem_keysOf_result_folderMap {zipEntries : List RawEntry} {k : String} :
    k ∈ keysOf (parseZipAsTree zipEntries).folderMap ↔
      k ∈ keysOf (pass2 zipEntries).folderMap := by
  rw [(result_finalize_facts zipEntries).1]

theorem result_parent_key {zipEntries : List RawEntry} {en : RawEntry}
    (hen : en ∈ zipEntries) (hseg : parentSegs en.entryName ≠ []) :
    parentKey en.entryName ∈ keysOf (parseZipAsTree zipEntries).folderMap := by
  rw [mem_keysOf_result_folderMap, mem_keysOf_pass2_folderMap]
  exact Or.inl (mem_keysOf_pass1_folderMap.2 ⟨en, hen, hseg, rfl⟩)

theorem pass1_fileParentInv (zipEntries : List RawEntry) :
    FileParentInv (pass1 zipEntries) := by
  apply fileParentInv_parse
  intro k hk
  simp [keysOf] at hk

theorem result_fileMap_keys {zipEntries : List RawEntry} {k : String} :
    k ∈ keysOf (parseZipAsTree zipEntries).fileMap ↔
      k ∈ keysOf (pass1 zipEntries).fileMap := by
  rw [result_fileMap_def, pass2_fileMap]

theorem result_fileMap_parent {zipEntries : List RawEntry} {k : String}
    (hk : k ∈ keysOf (parseZipAsTree zipEntries).fileMap)
    (hseg : parentSegs k ≠ []) :
    parentKey k ∈ keysOf (parseZipAsTree zipEntries).folderMap := by
  rw [result_fileMap_keys] at hk
  have h1 : parentKey k ∈ keysOf (pass1 zipEntries).folderMap :=
    pass1_fileParentInv zipEntries k hk hseg
  rw [mem_keysOf_result_folderMap, mem_keysOf_pass2_folderMap]
  exact Or.inl h1

theorem result_fileMap_grandparent {zipEntries : List RawEntry} {k : String}
    (hk : k ∈ keysOf (parseZipAsTree zipEntries).fileMap)
    (hseg : parentSegs k ≠ []) (hseg2 : (parentSegs k).dropLast ≠ []) :
    joinSlash ((parentSegs k).dropLast) ∈
      keysOf (parseZipAsTree zipEntries).folderMap := by
  rw [result_fileMap_keys] at hk
  have h1 : parentKey k ∈ keysOf (pass1 zipEntries).folderMap :=
    pass1_fileParentInv zipEntries k hk hseg
  have hsplit : splitSlash (parentKey k) = parentSegs k :=
    splitSlash_parentKey hseg
  have hpseg : parentSegs (parentKey k) = (parentSegs k).dropLast := by
    unfold parentSegs
    rw [hsplit]
    rfl
  rw [mem_keysOf_result_folderMap, mem_keysOf_pass2_folderMap]
  refine Or.inr ⟨parentKey k, h1, ?_, ?_⟩
  · rw [hpseg]; exact hseg2
  · rw [show parentKey (parentKey k) = joinSlash (parentSegs (parentKey k)) from
      rfl, hpseg]

theorem result_root_file {zipEntries : List RawEntry} {en : RawEntry}
    (hen : en ∈ zipEntries) (hd : en.isDirectory = false)
    (hseg : parentSegs en.entryName = []) :
    en.entryName ∈ keysOf (parseZipAsTree zipEntries).fileMap := by
  rw [result_fileMap_keys]
  have h := @parse_root_file_mem
    { files := [], fileMap := [], folderMap := [] }
    (zipEntries.map toNode) (toNode en)
    (List.mem_map.2 ⟨en, hen, rfl⟩)
    (by rw [toNode_isDirectory]; exact hd)
    (by rw [toNode_entryName]; exact hseg)
  rw [toNode_entryName] at h
  exact h

theorem child_mem_of_equivCh {fm fm' : List (String × FolderData)}
    {t : String} {fd : FolderData} {x : Node} (hev : EquivCh fm fm')
    (hl : lookupA fm t = some fd) (hx : x ∈ fd.children) :
    ∃ fd', lookupA fm' t = some fd' ∧ x ∈ fd'.children := by
  rcases hev.2 t fd hl with ⟨fd', hl', hperm⟩
  exact ⟨fd', hl', hperm.mem_iff.1 hx⟩

theorem result_dirEntry_child {zipEntries : List RawEntry} {en : RawEntry}
    (hen : en ∈ zipEntries) (hd : en.isDirectory = true)
    (hseg : parentSegs en.entryName ≠ []) :
    ∃ fd, lookupA (parseZipAsTree zipEntries).folderMap
        (parentKey en.entryName) = some fd ∧
      Node.dirEntry en ∈ fd.children := by
  have h1 := @parse_child_self
    { files := [], fileMap := [], folderMap := [] }
    (zipEntries.map toNode) (toNode en)
    (List.mem_map.2 ⟨en, hen, rfl⟩)
    (by rw [toNode_entryName]; exact hseg)
  rw [toNode_entryName] at h1
  rw [toNode_of_dir hd] at h1
  rcases h1 with ⟨fd1, hl1, hx1⟩
  have h2 := @child_mem_parse (pass1 zipEntries)
    ((pass1 zipEntries).folderMap.map (fun kv => Node.folder kv.1))
    _ _ _ hl1 hx1
  rcases h2 with ⟨fd2, hl2, hx2⟩
  exact child_mem_of_equivCh (result_finalize_facts zipEntries).2.1 hl2 hx2

/-! ## Idempotence of the finalize phase -/

theorem finalizeStep_eq {fm : List (String × FolderData)} {k : String}
    {fd : FolderData} (hl : lookupA fm k = some fd) :
    finalizeStep fm k =
      setA (setA fm k { fd with children := sortJs fd.children }) k
        { fd with
            children := sortJs fd.children
            fileSize := some (sumItems rawSel
              (setA fm k { fd with children := sortJs fd.children })
              ((setA fm k { fd with children := sortJs fd.children }).length + 1)
              (sortJs fd.children))
            compressedSize := some (sumItems compSel
              (setA fm k { fd with children := sortJs fd.children })
              ((setA fm k { fd with children := sortJs fd.children }).length + 1)
              (sortJs fd.children)) } := by
  unfold finalizeStep
  rw [hl]

theorem finalizeStep_id {fm : List (String × FolderData)} {k : String}
    {fd : FolderData} (hl : lookupA fm k = some fd)
    (hsort : fd.children.Pairwise sortFilesLe)
    (hraw : fd.fileSize =
      some (sumItems rawSel fm (fm.length + 1) fd.children))
    (hcomp : fd.compressedSize =
      some (sumItems compSel fm (fm.length + 1) fd.children)) :
    finalizeStep fm k = fm := by
  rw [finalizeStep_eq hl]
  rw [sortJs_eq_of_sorted hsort]
  rw [show { fd with children := fd.children } = fd from rfl]
  rw [setA_eq_self hl]
  rw [← hraw, ← hcomp]
  rw [show { fd with
      children := fd.children
      fileSize := fd.fileSize
      compressedSize := fd.compressedSize } = fd from rfl]
  rw [setA_eq_self hl]

theorem finalize_fold_id {fm : List (String × FolderData)} :
    ∀ ks : List String, (∀ k ∈ ks, finalizeStep fm k = fm) →
      ks.foldl finalizeStep fm = fm := by
  intro ks
  induction ks with
  | nil => intro _; rfl
  | cons k rest ih =>
    intro h
    rw [List.foldl_cons, h k (List.mem_cons_self k rest)]
    exact ih (fun k2 hk2 => h k2 (List.mem_cons_of_mem k hk2))

theorem finalizePhase_result_id (zipEntries : List RawEntry) :
    finalizePhase (parseZipAsTree zipEntries) = parseZipAsTree zipEntries := by
  have hfiles : sortJs (parseZipAsTree zipEntries).files =
      (parseZipAsTree zipEntries).files := by
    rw [result_files_def]
    exact sortJs_eq_of_sorted (sortJs_sorted _)
  have hfold : (keysOf (parseZipAsTree zipEntries).folderMap).foldl
      finalizeStep (parseZipAsTree zipEntries).folderMap =
      (parseZipAsTree zipEntries).folderMap := by
    apply finalize_fold_id
    intro k hk
    rcases lookupA_isSome_of_mem hk with ⟨fd, hl⟩
    rcases result_aggFacts hl with ⟨hsort, hraw, hcomp⟩
    exact finalizeStep_id hl hsort hraw hcomp
  unfold finalizePhase
  rw [hfiles, hfold]

/-! ## Bridges to the specification vocabulary -/

/-- Modelled from the spec: the aggregate of a selector over every file node
reachable from the given children, directories contributing zero of their
own ("sum of `rawSize` over every FileNode reachable from D"). -/
def specAggOf (sel : FileNode → Option Nat) (fm : List (String × FolderData))
    (fuel : Nat) (l : List Node) : Nat :=
  (((l.map (specReachableFiles fm fuel)).flatten).map
    (fun f => (sel f).getD 0)).sum

theorem sumItems_eq_specAgg (sel : FileNode → Option Nat)
    (fm : List (String × FolderData)) (fuel : Nat) (l : List Node) :
    sumItems sel fm fuel l = specAggOf sel fm fuel l := by
  unfold sumItems specAggOf
  rw [List.map_flatten, List.sum_flatten, List.map_map, List.map_map]
  exact congrArg List.sum
    (List.map_congr_left (fun n _ => nodeSum_eq_reach sel fm fuel n))

/-- The pairwise ordering property claimed of the final sequences: a
directory never follows a file, and names are non-decreasing inside each of
the two groups. -/
def orderedOk (l : List Node) : Prop :=
  l.Pairwise (fun a b =>
    (b.isDirectory = true → a.isDirectory = true) ∧
    (a.isDirectory = b.isDirectory → localeCompare a.name b.name ≤ 0))

theorem sortFilesLe_pair {a b : Node} (h : sortFilesLe a b) :
    (b.isDirectory = true → a.isDirectory = true) ∧
    (a.isDirectory = b.isDirectory → localeCompare a.name b.name ≤ 0) := by
  rw [sortFilesLe_iff] at h
  rcases h with ⟨h1, h2, h3⟩ | ⟨h1, h2⟩ | ⟨h1, h2, h3⟩
  · exact ⟨fun _ => h1, fun _ => h3⟩
  · refine ⟨fun _ => h1, fun hc => ?_⟩
    rw [h1, h2] at hc
    cases hc
  · refine ⟨fun hb => ?_, fun _ => h3⟩
    rw [h2] at hb
    cases hb

theorem parentSegs_append_slash (t : String) :
    parentSegs (t ++ "/") = splitSlash t := by
  unfold parentSegs
  rw [splitSlash_append_slash]
  exact List.dropLast_concat

theorem parentKey_append_slash (t : String) : parentKey (t ++ "/") = t := by
  unfold parentKey
  rw [parentSegs_append_slash, joinSlash_splitSlash]

theorem result_nodup_fileMap (zipEntries : List RawEntry) :
    (keysOf (parseZipAsTree zipEntries).fileMap).Nodup := by
  rw [result_fileMap_def]
  exact pass2_nodup_fileMap zipEntries

theorem result_nodup_folderMap (zipEntries : List RawEntry) :
    (keysOf (parseZipAsTree zipEntries).folderMap).Nodup := by
  rw [(result_finalize_facts zipEntries).1]
  exact pass2_nodup_folderMap zipEntries

theorem mem_keysOf_result_iff_entries {zipEntries : List RawEntry}
    {k : String} :
    k ∈ keysOf (parseZipAsTree zipEntries).folderMap ↔
      (∃ en ∈ zipEntries, parentSegs en.entryName ≠ [] ∧
          k = parentKey en.entryName) ∨
        ∃ q, (∃ en ∈ zipEntries, parentSegs en.entryName ≠ [] ∧
            q = parentKey en.entryName) ∧
          parentSegs q ≠ [] ∧ k = parentKey q := by
  rw [mem_keysOf_result_folderMap, mem_keysOf_pass2_folderMap,
    mem_keysOf_pass1_folderMap]
  constructor
  · rintro (h | ⟨q, hq, h1, h2⟩)
    · exact Or.inl h
    · exact Or.inr ⟨q, mem_keysOf_pass1_folderMap.1 hq, h1, h2⟩
  · rintro (h | ⟨q, hq, h1, h2⟩)
    · exact Or.inl h
    · exact Or.inr ⟨q, mem_keysOf_pass1_folderMap.2 hq, h1, h2⟩

/-! ## Exact characterization of children and roots, and permutation
invariance of the folder structure -/

/-- The items of a pass that get attached as children of the folder
registered under `p` (those whose computed parent path is `p`). -/
def itemsFor (p : String) (items : List Node) : List Node :=
  items.filter (fun n =>
    decide (parentSegs n.entryName ≠ []) && decide (parentKey n.entryName = p))

theorem itemsFor_cons_match {p : String} {n : Node} {items : List Node}
    (h1 : parentSegs n.entryName ≠ []) (h2 : parentKey n.entryName = p) :
    itemsFor p (n :: items) = n :: itemsFor p items := by
  unfold itemsFor
  rw [List.filter_cons_of_pos]
  simp [h1, h2]

theorem itemsFor_cons_other {p : String} {n : Node} {items : List Node}
    (h : ¬(parentSegs n.entryName ≠ [] ∧ parentKey n.entryName = p)) :
    itemsFor p (n :: items) = itemsFor p items := by
  unfold itemsFor
  rw [List.filter_cons_of_neg]
  simp only [Bool.and_eq_true, decide_eq_true_eq]
  exact h

theorem stepItem_lookup_other {st : ParseState} {n : Node} {p : String}
    (h : ¬(parentSegs n.entryName ≠ [] ∧ parentKey n.entryName = p)) :
    lookupA (stepItem st n).folderMap p = lookupA st.folderMap p := by
  by_cases hseg : parentSegs n.entryName = []
  · rw [stepItem_root hseg]
  · have hne : parentKey n.entryName ≠ p := fun hp => h ⟨hseg, hp⟩
    have hne2 : p ≠ parentKey n.entryName := Ne.symm hne
    rcases hl : lookupA st.folderMap (parentKey n.entryName) with _ | fd
    · rw [stepItem_create hseg hl]
      exact lookupA_setA_ne _ _ hne2
    · rw [stepItem_push hseg hl]
      exact lookupA_setA_ne _ _ hne2

theorem stepItem_lookup_match {st : ParseState} {n : Node}
    (hseg : parentSegs n.entryName ≠ []) :
    lookupA (stepItem st n).folderMap (parentKey n.entryName) =
      some (match lookupA st.folderMap (parentKey n.entryName) with
        | some fd => { fd with children := fd.children ++ [n] }
        | none =>
          { isDirectory := true
            children := [n]
            entryName := parentKey n.entryName
            name := basename (parentKey n.entryName)
            fileSize := none
            compressedSize := none }) := by
  rcases hl : lookupA st.folderMap (parentKey n.entryName) with _ | fd
  · rw [stepItem_create hseg hl]
    exact lookupA_setA_self _ _ _
  · rw [stepItem_push hseg hl]
    exact lookupA_setA_self _ _ _

theorem children_parse_of_some {st : ParseState} {p : String}
    {fd : FolderData} :
    ∀ {items : List Node}, lookupA st.folderMap p = some fd →
      ∃ fd', lookupA (parseFlatItems st items).folderMap p = some fd' ∧
        fd'.children = fd.children ++ itemsFor p items := by
  intro items
  induction items generalizing st fd with
  | nil => exact fun hl => ⟨fd, hl, by simp [itemsFor]⟩
  | cons n rest ih =>
    intro hl
    rw [parseFlatItems_cons]
    by_cases hmatch : parentSegs n.entryName ≠ [] ∧ parentKey n.entryName = p
    · have hlp : lookupA st.folderMap (parentKey n.entryName) = some fd := by
        rw [hmatch.2]
        exact hl
      have hl2 : lookupA (stepItem st n).folderMap p =
          some { fd with children := fd.children ++ [n] } := by
        rw [← hmatch.2, stepItem_lookup_match hmatch.1, hlp]
      rcases ih hl2 with ⟨fd', hl', hch⟩
      refine ⟨fd', hl', ?_⟩
      rw [hch, itemsFor_cons_match hmatch.1 hmatch.2]
      simp
    · have hl2 : lookupA (stepItem st n).folderMap p = some fd := by
        rw [stepItem_lookup_other hmatch]
        exact hl
      rcases ih hl2 with ⟨fd', hl', hch⟩
      exact ⟨fd', hl', by rw [hch, itemsFor_cons_other hmatch]⟩

theorem children_parse_of_none {st : ParseState} {p : String} :
    ∀ {items : List Node}, lookupA st.folderMap p = none →
      (lookupA (parseFlatItems st items).folderMap p = none ∧
          itemsFor p items = []) ∨
        ∃ fd', lookupA (parseFlatItems st items).folderMap p = some fd' ∧
          fd'.children = itemsFor p items := by
  intro items
  induction items generalizing st with
  | nil => exact fun hl => Or.inl ⟨hl, by simp [itemsFor]⟩
  | cons n rest ih =>
    intro hl
    rw [parseFlatItems_cons]
    by_cases hmatch : parentSegs n.entryName ≠ [] ∧ parentKey n.entryName = p
    · have hlp : lookupA st.folderMap (parentKey n.entryName) = none := by
        rw [hmatch.2]
        exact hl
      have hl2 : lookupA (stepItem st n).folderMap p =
          some { isDirectory := true
                 children := [n]
                 entryName := parentKey n.entryName
                 name := basename (parentKey n.entryName)
                 fileSize := none
                 compressedSize := none } := by
        rw [← hmatch.2, stepItem_lookup_match hmatch.1, hlp]
      rcases children_parse_of_some hl2 with ⟨fd', hl', hch⟩
      refine Or.inr ⟨fd', hl', ?_⟩
      rw [hch, itemsFor_cons_match hmatch.1 hmatch.2]
      simp
    · have hl2 : lookupA (stepItem st n).folderMap p = none := by
        rw [stepItem_lookup_other hmatch]
        exact hl
      rcases ih hl2 with ⟨h1, h2⟩ | ⟨fd', hl', hch⟩
      · exact Or.inl ⟨h1, by rw [itemsFor_cons_other hmatch, h2]⟩
      · exact Or.inr ⟨fd', hl', by rw [hch, itemsFor_cons_other hmatch]⟩

theorem files_parse (st : ParseState) :
    ∀ items : List Node, (parseFlatItems st items).files =
      st.files ++ items.filter (fun n => decide (parentSegs n.entryName = [])) := by
  intro items
  induction items generalizing st with
  | nil => simp [parseFlatItems_nil]
  | cons n rest ih =>
    rw [parseFlatItems_cons, ih]
    by_cases hseg : parentSegs n.entryName = []
    · rw [stepItem_root hseg]
      rw [List.filter_cons_of_pos (by simp [hseg])]
      simp
    · rw [List.filter_cons_of_neg (by simp [hseg])]
      rcases hl : lookupA st.folderMap (parentKey n.entryName) with _ | fd
      · rw [stepItem_create hseg hl]
      · rw [stepItem_push hseg hl]

theorem pass2_children_char {zipEntries : List RawEntry} {p : String}
    {fd : FolderData}
    (hl : lookupA (pass2 zipEntries).folderMap p = some fd) :
    fd.children = itemsFor p (zipEntries.map toNode) ++
      itemsFor p ((pass1 zipEntries).folderMap.map (fun kv => Node.folder kv.1)) := by
  have hinit : lookupA
      ({ files := [], fileMap := [], folderMap := [] } : ParseState).folderMap
        p = none := rfl
  rcases @children_parse_of_none
      { files := [], fileMap := [], folderMap := [] } p
      (zipEntries.map toNode) hinit with ⟨h1, h2⟩ | ⟨fd1, hl1, hch1⟩
  · rcases @children_parse_of_none (pass1 zipEntries) p
        ((pass1 zipEntries).folderMap.map (fun kv => Node.folder kv.1))
        h1 with ⟨h3, _⟩ | ⟨fd2, hl2, hch2⟩
    · rw [show (pass2 zipEntries) = parseFlatItems (pass1 zipEntries)
          ((pass1 zipEntries).folderMap.map (fun kv => Node.folder kv.1))
          from rfl] at hl
      rw [h3] at hl
      exact Option.noConfusion hl
    · rw [show (pass2 zipEntries) = parseFlatItems (pass1 zipEntries)
          ((pass1 zipEntries).folderMap.map (fun kv => Node.folder kv.1))
          from rfl] at hl
      rw [hl2] at hl
      obtain rfl : fd2 = fd := Option.some.inj hl
      rw [hch2, h2]
      rfl
  · rcases @children_parse_of_some (pass1 zipEntries) p fd1
        ((pass1 zipEntries).folderMap.map (fun kv => Node.folder kv.1))
        hl1 with ⟨fd2, hl2, hch2⟩
    rw [show (pass2 zipEntries) = parseFlatItems (pass1 zipEntries)
        ((pass1 zipEntries).folderMap.map (fun kv => Node.folder kv.1))
        from rfl] at hl
    rw [hl2] at hl
    obtain rfl : fd2 = fd := Option.some.inj hl
    rw [hch2, hch1]

/-- Maps whose key sequences are permutations of each other (without
duplicates) and whose values have, per key, the same children up to
permutation.  The recursive sums are invariant under this relation. -/
def EquivPerm (fm1 fm2 : List (String × FolderData)) : Prop :=
  (keysOf fm1).Nodup ∧ (keysOf fm2).Nodup ∧
    (keysOf fm1).Perm (keysOf fm2) ∧
    ∀ k fd1, lookupA fm1 k = some fd1 →
      ∃ fd2, lookupA fm2 k = some fd2 ∧ fd1.children.Perm fd2.children

theorem equivPerm_lookup_back {fm1 fm2 : List (String × FolderData)}
    (h : EquivPerm fm1 fm2) {k : String} {fd2 : FolderData}
    (hl2 : lookupA fm2 k = some fd2) :
    ∃ fd1, lookupA fm1 k = some fd1 ∧ fd1.children.Perm fd2.children := by
  have hk : k ∈ keysOf fm1 := by
    rw [h.2.2.1.mem_iff]
    exact mem_keysOf_iff_lookupA.2 (by rw [hl2]; exact fun hc => Option.noConfusion hc)
  rcases lookupA_isSome_of_mem hk with ⟨fd1, hl1⟩
  rcases h.2.2.2 k fd1 hl1 with ⟨fd2x, hl2x, hperm⟩
  rw [hl2] at hl2x
  obtain rfl : fd2x = fd2 := (Option.some.inj hl2x).symm
  exact ⟨fd1, hl1, hperm⟩

theorem equivPerm_symm {fm1 fm2 : List (String × FolderData)}
    (h : EquivPerm fm1 fm2) : EquivPerm fm2 fm1 := by
  refine ⟨h.2.1, h.1, h.2.2.1.symm, fun k fd2 hl2 => ?_⟩
  rcases equivPerm_lookup_back h hl2 with ⟨fd1, hl1, hperm⟩
  exact ⟨fd1, hl1, hperm.symm⟩

theorem equivPerm_trans {fm1 fm2 fm3 : List (String × FolderData)}
    (h12 : EquivPerm fm1 fm2) (h23 : EquivPerm fm2 fm3) :
    EquivPerm fm1 fm3 := by
  refine ⟨h12.1, h23.2.1, h12.2.2.1.trans h23.2.2.1, fun k fd1 hl1 => ?_⟩
  rcases h12.2.2.2 k fd1 hl1 with ⟨fd2, hl2, hp2⟩
  rcases h23.2.2.2 k fd2 hl2 with ⟨fd3, hl3, hp3⟩
  exact ⟨fd3, hl3, hp2.trans hp3⟩

theorem equivCh_to_equivPerm {fm1 fm2 : List (String × FolderData)}
    (h : EquivCh fm1 fm2) (hnd : (keysOf fm1).Nodup) : EquivPerm fm1 fm2 :=
  ⟨hnd, h.1 ▸ hnd, h.1 ▸ List.Perm.refl (keysOf fm1), h.2⟩

theorem equivPerm_length {fm1 fm2 : List (String × FolderData)}
    (h : EquivPerm fm1 fm2) : fm1.length = fm2.length := by
  have hlen := h.2.2.1.length_eq
  simpa [keysOf] using hlen

theorem nodeSum_congr_perm {sel : FileNode → Option Nat}
    {fm1 fm2 : List (String × FolderData)} (h : EquivPerm fm1 fm2) :
    ∀ fuel n, nodeSum sel fm1 fuel n = nodeSum sel fm2 fuel n := by
  intro fuel
  induction fuel with
  | zero => intro n; cases n <;> rfl
  | succ fuel ih =>
    intro n
    cases n with
    | file f => rfl
    | dirEntry e => rfl
    | folder p =>
      rcases hl : lookupA fm1 p with _ | fd
      · have hl2 : lookupA fm2 p = none := by
          apply lookupA_eq_none_of_not_mem
          rw [← h.2.2.1.mem_iff]
          exact fun hmem => (mem_keysOf_iff_lookupA.1 hmem) hl
        simp only [nodeSum, hl, hl2]
      · rcases h.2.2.2 p fd hl with ⟨fd2, hl2, hperm⟩
        simp only [nodeSum, hl, hl2]
        calc (fd.children.map (nodeSum sel fm1 fuel)).sum
            = (fd.children.map (nodeSum sel fm2 fuel)).sum := by
              rw [List.map_congr_left (fun x _ => ih x)]
          _ = (fd2.children.map (nodeSum sel fm2 fuel)).sum :=
              (hperm.map _).sum_eq

theorem sumItems_congr_perm {sel : FileNode → Option Nat}
    {fm1 fm2 : List (String × FolderData)} (h : EquivPerm fm1 fm2)
    (fuel : Nat) {l1 l2 : List Node} (hl : l1.Perm l2) :
    sumItems sel fm1 fuel l1 = sumItems sel fm2 fuel l2 := by
  unfold sumItems
  calc (l1.map (nodeSum sel fm1 fuel)).sum
      = (l1.map (nodeSum sel fm2 fuel)).sum := by
        rw [List.map_congr_left (fun x _ => nodeSum_congr_perm h fuel x)]
    _ = (l2.map (nodeSum sel fm2 fuel)).sum := (hl.map _).sum_eq

theorem pass1_nodup_folderMap (zipEntries : List RawEntry) :
    (keysOf (pass1 zipEntries).folderMap).Nodup := by
  apply nodup_folderMap_parse
  simp [keysOf]

theorem pass1_keys_perm {l1 l2 : List RawEntry} (hperm : l1.Perm l2) :
    (keysOf (pass1 l1).folderMap).Perm (keysOf (pass1 l2).folderMap) := by
  refine (List.perm_ext_iff_of_nodup (pass1_nodup_folderMap l1)
    (pass1_nodup_folderMap l2)).2 (fun a => ?_)
  rw [mem_keysOf_pass1_folderMap, mem_keysOf_pass1_folderMap]
  simp only [hperm.mem_iff]

theorem folderMap_items_eq_keys (fm : List (String × FolderData)) :
    fm.map (fun kv => Node.folder kv.1) =
      (keysOf fm).map (fun q => Node.folder q) := by
  unfold keysOf
  rw [List.map_map]
  rfl

theorem pass2_keys_perm {l1 l2 : List RawEntry} (hperm : l1.Perm l2) :
    (keysOf (pass2 l1).folderMap).Perm (keysOf (pass2 l2).folderMap) := by
  refine (List.perm_ext_iff_of_nodup (pass2_nodup_folderMap l1)
    (pass2_nodup_folderMap l2)).2 (fun a => ?_)
  rw [mem_keysOf_pass2_folderMap, mem_keysOf_pass2_folderMap]
  simp only [mem_keysOf_pass1_folderMap, hperm.mem_iff]

theorem pass2_equivPerm {l1 l2 : List RawEntry} (hperm : l1.Perm l2) :
    EquivPerm (pass2 l1).folderMap (pass2 l2).folderMap := by
  refine ⟨pass2_nodup_folderMap l1, pass2_nodup_folderMap l2,
    pass2_keys_perm hperm, ?_⟩
  intro k fd1 hl1
  have hk : k ∈ keysOf (pass2 l2).folderMap := by
    rw [← (pass2_keys_perm hperm).mem_iff]
    exact mem_keysOf_iff_lookupA.2 (by rw [hl1]; exact fun hc => Option.noConfusion hc)
  rcases lookupA_isSome_of_mem hk with ⟨fd2, hl2⟩
  refine ⟨fd2, hl2, ?_⟩
  rw [pass2_children_char hl1, pass2_children_char hl2]
  refine List.Perm.append ?_ ?_
  · exact (hperm.map toNode).filter _
  · rw [folderMap_items_eq_keys, folderMap_items_eq_keys]
    exact ((pass1_keys_perm hperm).map (fun q => Node.folder q)).filter _

theorem result_equivPerm {l1 l2 : List RawEntry} (hperm : l1.Perm l2) :
    EquivPerm (parseZipAsTree l1).folderMap (parseZipAsTree l2).folderMap := by
  have h1 : EquivPerm (pass2 l1).folderMap (parseZipAsTree l1).folderMap :=
    equivCh_to_equivPerm (result_finalize_facts l1).2.1
      (pass2_nodup_folderMap l1)
  have h2 : EquivPerm (pass2 l2).folderMap (parseZipAsTree l2).folderMap :=
    equivCh_to_equivPerm (result_finalize_facts l2).2.1
      (pass2_nodup_folderMap l2)
  exact equivPerm_trans (equivPerm_symm h1)
    (equivPerm_trans (pass2_equivPerm hperm) h2)

theorem pass2_files_char (zipEntries : List RawEntry) :
    (pass2 zipEntries).files =
      (zipEntries.map toNode).filter
          (fun n => decide (parentSegs n.entryName = [])) ++
        ((pass1 zipEntries).folderMap.map (fun kv => Node.folder kv.1)).filter
          (fun n => decide (parentSegs n.entryName = [])) := by
  unfold pass2
  rw [files_parse]
  congr 1
  unfold pass1
  rw [files_parse]
  rfl

theorem result_files_perm {l1 l2 : List RawEntry} (hperm : l1.Perm l2) :
    (parseZipAsTree l1).files.Perm (parseZipAsTree l2).files := by
  rw [result_files_def, result_files_def]
  refine (sortJs_perm _).trans (List.Perm.trans ?_ (sortJs_perm _).symm)
  rw [pass2_files_char, pass2_files_char]
  refine List.Perm.append ((hperm.map toNode).filter _) ?_
  rw [folderMap_items_eq_keys, folderMap_items_eq_keys]
  exact ((pass1_keys_perm hperm).map (fun q => Node.folder q)).filter _

/-! ## The claims -/

/-- Claim C2: for every input and every directory node in `folderMap`, the
byte count stored for its raw-size aggregate (the number passed to
`prettyBytes`) equals the sum of `originFileSize` over every file node
reachable from it through `children` edges, directories contributing zero of
their own; identically for the compressed-size aggregate over
`originCompressedSize`.  Any fuel exceeding the number of registered folders
reaches every file (folder references get strictly deeper at each step). -/
theorem spec_C2_sum_law (zipEntries : List RawEntry) (k : String)
    (fd : FolderData) (fuel : Nat)
    (hl : lookupA (parseZipAsTree zipEntries).folderMap k = some fd)
    (hfuel : (parseZipAsTree zipEntries).folderMap.length < fuel) :
    fd.fileSize = some (specAggOf rawSel
      (parseZipAsTree zipEntries).folderMap fuel fd.children) ∧
    fd.compressedSize = some (specAggOf compSel
      (parseZipAsTree zipEntries).folderMap fuel fd.children) := by
  rcases result_aggFacts hl with ⟨_, hraw, hcomp⟩
  have hci := result_childInv zipEntries
  constructor
  · rw [hraw, sumItems_fuel_congr hci hl (by omega) hfuel,
      sumItems_eq_specAgg]
  · rw [hcomp, sumItems_fuel_congr hci hl (by omega) hfuel,
      sumItems_eq_specAgg]

/-- Entry used to instantiate claim C2. -/
def c2file : RawEntry :=
  ⟨false, "c.txt", "b/c.txt", some ⟨20, 7⟩⟩

/-- Witness for claim C2 at a concrete input. -/
theorem spec_C2_witness :
    (⟨true, [Node.file ⟨"c.txt", "b/c.txt", some 20, some 7⟩], "b", "b",
        some 20, some 7⟩ : FolderData).fileSize =
      some (specAggOf rawSel (parseZipAsTree [c2file]).folderMap 2
        [Node.file ⟨"c.txt", "b/c.txt", some 20, some 7⟩]) ∧
    (⟨true, [Node.file ⟨"c.txt", "b/c.txt", some 20, some 7⟩], "b", "b",
        some 20, some 7⟩ : FolderData).compressedSize =
      some (specAggOf compSel (parseZipAsTree [c2file]).folderMap 2
        [Node.file ⟨"c.txt", "b/c.txt", some 20, some 7⟩]) :=
  spec_C2_sum_law [c2file] "b"
    ⟨true, [Node.file ⟨"c.txt", "b/c.txt", some 20, some 7⟩], "b", "b",
      some 20, some 7⟩ 2 (by decide) (by decide)

/-- Claim C5: after `parseZipAsTree`, in the root sequence and in every
directory's children sequence, no file node precedes a directory node, and
within each group the names are non-decreasing under the (modelled)
locale-aware comparison. -/
theorem spec_C5_ordering (zipEntries : List RawEntry) :
    orderedOk (parseZipAsTree zipEntries).files ∧
    ∀ k fd, lookupA (parseZipAsTree zipEntries).folderMap k = some fd →
      orderedOk fd.children := by
  constructor
  · rw [result_files_def]
    exact (sortJs_sorted _).imp (fun h => sortFilesLe_pair h)
  · intro k fd hl
    exact ((result_aggFacts hl).1).imp (fun h => sortFilesLe_pair h)

/-- Entries used to instantiate claim C5. -/
def c5c : RawEntry :=
  ⟨false, "c.txt", "b/c.txt", some ⟨20, 7⟩⟩

/-- Second entry used to instantiate claim C5. -/
def c5d : RawEntry :=
  ⟨false, "d.txt", "b/d.txt", some ⟨10, 4⟩⟩

/-- Witness for claim C5 at a concrete input. -/
theorem spec_C5_witness :
    orderedOk (parseZipAsTree [c5c, c5d]).files ∧
    orderedOk (⟨true,
      [Node.file ⟨"c.txt", "b/c.txt", some 20, some 7⟩,
        Node.file ⟨"d.txt", "b/d.txt", some 10, some 4⟩], "b", "b",
      some 30, some 11⟩ : FolderData).children :=
  ⟨(spec_C5_ordering [c5c, c5d]).1,
    (spec_C5_ordering [c5c, c5d]).2 "b"
      ⟨true,
        [Node.file ⟨"c.txt", "b/c.txt", some 20, some 7⟩,
          Node.file ⟨"d.txt", "b/d.txt", some 10, some 4⟩], "b", "b",
        some 30, some 11⟩ (by decide)⟩

/-- Claim C9: the finalize phase (sorting every directory's children,
recomputing the aggregates, sorting the roots) is idempotent — running it a
second time on the completed result of `parseZipAsTree` changes nothing. -/
theorem spec_C9_idempotent (zipEntries : List RawEntry) :
    finalizePhase (parseZipAsTree zipEntries) = parseZipAsTree zipEntries :=
  finalizePhase_result_id zipEntries

/-- Claim C10: every value stored in `folderMap` is a synthesized node
carrying exactly `isDirectory = true`, `children`, `entryName` (its key) and
`name = basename key`; an explicit directory entry is never itself the
registered node — its trailing-slash `entryName` makes its computed parent
path equal its own logical path, so it is appended as a child of the
synthesized node registered under that same path. -/
theorem spec_C10_synthesized_folders (zipEntries : List RawEntry) :
    (∀ k fd, lookupA (parseZipAsTree zipEntries).folderMap k = some fd →
      fd.isDirectory = true ∧ fd.entryName = k ∧ fd.name = basename k) ∧
    ∀ en ∈ zipEntries, en.isDirectory = true →
      ∀ t, en.entryName = t ++ "/" →
        parentKey en.entryName = t ∧
        ∃ fd, lookupA (parseZipAsTree zipEntries).folderMap t = some fd ∧
          Node.dirEntry en ∈ fd.children := by
  refine ⟨result_folderShape zipEntries, ?_⟩
  intro en hen hd t ht
  have hpk : parentKey en.entryName = t := by
    rw [ht, parentKey_append_slash]
  have hseg : parentSegs en.entryName ≠ [] := by
    rw [ht, parentSegs_append_slash]
    exact splitSlash_ne_nil t
  refine ⟨hpk, ?_⟩
  have h := result_dirEntry_child hen hd hseg
  rwa [hpk] at h

/-- Entry used to instantiate claim C10. -/
def c10dir : RawEntry :=
  ⟨true, "x", "x/", some ⟨0, 0⟩⟩

/-- Witness for claim C10 at a concrete input. -/
theorem spec_C10_witness :
    parentKey c10dir.entryName = "x" ∧
    ∃ fd, lookupA (parseZipAsTree [c10dir]).folderMap "x" = some fd ∧
      Node.dirEntry c10dir ∈ fd.children :=
  (spec_C10_synthesized_folders [c10dir]).2 c10dir (by decide) (by decide)
    "x" (by decide)

/-- Entry used for claims about deep paths. -/
def c1d : RawEntry :=
  ⟨false, "d.txt", "a/b/c/d.txt", some ⟨1, 1⟩⟩

/-- Second entry used for claims about deep paths. -/
def c1e : RawEntry :=
  ⟨false, "e.txt", "a/b/c/e.txt", some ⟨1, 1⟩⟩

/-- Claim C1 counterexample: the proper prefix "a" of the `fileMap` key
"a/b/c/e.txt" is not a key of `folderMap` — only the parent and grandparent
prefixes get registered, because the second pass runs once over a snapshot
instead of iterating to a fixpoint. -/
theorem spec_C1_counterexample :
    lookupA (parseZipAsTree [c1d, c1e]).fileMap "a/b/c/e.txt" ≠ none ∧
    ("a" : String) ++ "/" ++ "b/c/e.txt" = "a/b/c/e.txt" ∧
    lookupA (parseZipAsTree [c1d, c1e]).folderMap "a" = none := by
  decide

/-- Claim C1 (amended): for every key of `fileMap`, the prefix obtained by
dropping its last segment and, when non-empty, the prefix obtained by
dropping its last two segments are keys of `folderMap`; shorter prefixes may
be missing. -/
theorem spec_C1_prefix_closure (zipEntries : List RawEntry) (k : String)
    (hk : k ∈ keysOf (parseZipAsTree zipEntries).fileMap) :
    (parentSegs k ≠ [] →
      parentKey k ∈ keysOf (parseZipAsTree zipEntries).folderMap) ∧
    ((parentSegs k).dropLast ≠ [] →
      joinSlash ((parentSegs k).dropLast) ∈
        keysOf (parseZipAsTree zipEntries).folderMap) := by
  constructor
  · exact fun hseg => result_fileMap_parent hk hseg
  · intro h2
    have hseg : parentSegs k ≠ [] := by
      intro h
      rw [h] at h2
      exact h2 rfl
    exact result_fileMap_grandparent hk hseg h2

/-- Witness for the amended claim C1 at a concrete input. -/
theorem spec_C1_witness :
    ("a/b/c" : String) ∈ keysOf (parseZipAsTree [c1d, c1e]).folderMap ∧
    ("a/b" : String) ∈ keysOf (parseZipAsTree [c1d, c1e]).folderMap := by
  have h := spec_C1_prefix_closure [c1d, c1e] "a/b/c/e.txt" (by decide)
  constructor
  · have h1 := h.1 (by decide)
    rwa [(by decide : parentKey "a/b/c/e.txt" = "a/b/c")] at h1
  · have h2 := h.2 (by decide)
    rwa [(by decide :
      joinSlash ((parentSegs "a/b/c/e.txt").dropLast) = "a/b")] at h2

/-- Explicit directory entry used for claim C3. -/
def c3dir : RawEntry :=
  ⟨true, "x", "x/", some ⟨0, 0⟩⟩

/-- File entry used for claim C3. -/
def c3file : RawEntry :=
  ⟨false, "y.txt", "x/y.txt", some ⟨5, 3⟩⟩

/-- Claim C3 counterexample: for entries `["x/", "x/y.txt"]` the node
registered under "x" is not the explicit directory entry — it is a
synthesized node (entryName "x", not "x/") that holds the explicit entry as
its first child. -/
theorem spec_C3_counterexample :
    lookupA (parseZipAsTree [c3dir, c3file]).folderMap "x" =
      some ⟨true,
        [Node.dirEntry c3dir,
          Node.file ⟨"y.txt", "x/y.txt", some 5, some 3⟩],
        "x", "x", some 5, some 3⟩ ∧
    c3dir.entryName ≠ "x" := by
  decide

/-- Claim C3 (amended): for entries `["x/", "x/y.txt"]` the node registered
under "x" is a synthesized implicit node whose children contain the explicit
directory entry; its raw-size aggregate is 5 (the explicit entry contributes
nothing). -/
theorem spec_C3_wrapped_explicit :
    ∃ fd, lookupA (parseZipAsTree [c3dir, c3file]).folderMap "x" = some fd ∧
      fd.isDirectory = true ∧ fd.entryName = "x" ∧
      Node.dirEntry c3dir ∈ fd.children ∧ fd.fileSize = some 5 := by
  refine ⟨⟨true,
    [Node.dirEntry c3dir, Node.file ⟨"y.txt", "x/y.txt", some 5, some 3⟩],
    "x", "x", some 5, some 3⟩, ?_, ?_, ?_, ?_, ?_⟩ <;> decide

/-- Root file entry (size 1) used for claim C4. -/
def c4a : RawEntry :=
  ⟨false, "a.txt", "a.txt", some ⟨1, 1⟩⟩

/-- Root file entry with the same path (size 2) used for claim C4. -/
def c4b : RawEntry :=
  ⟨false, "a.txt", "a.txt", some ⟨2, 2⟩⟩

/-- Claim C4 counterexample: permuting the input entries changes the result
(both the `fileMap` value, which is last-write-wins, and the stable order of
equal-name roots), so the build is not order-independent. -/
theorem spec_C4_counterexample :
    [c4a, c4b].Perm [c4b, c4a] ∧
    parseZipAsTree [c4a, c4b] ≠ parseZipAsTree [c4b, c4a] := by
  constructor
  · exact List.Perm.swap c4b c4a []
  · decide

/-- Claim C4 (amended): permuting the input entries preserves the key set of
`folderMap`, every folder's children up to permutation, every folder's two
stored aggregate byte counts, and the root sequence up to permutation; the
`fileMap` bindings and the exact orderings need not be preserved. -/
theorem spec_C4_structure_perm {l1 l2 : List RawEntry} (hperm : l1.Perm l2) :
    (∀ k, k ∈ keysOf (parseZipAsTree l1).folderMap ↔
      k ∈ keysOf (parseZipAsTree l2).folderMap) ∧
    (∀ k fd1 fd2, lookupA (parseZipAsTree l1).folderMap k = some fd1 →
      lookupA (parseZipAsTree l2).folderMap k = some fd2 →
      fd1.children.Perm fd2.children ∧ fd1.fileSize = fd2.fileSize ∧
        fd1.compressedSize = fd2.compressedSize) ∧
    (parseZipAsTree l1).files.Perm (parseZipAsTree l2).files := by
  have hev := result_equivPerm hperm
  refine ⟨fun k => hev.2.2.1.mem_iff, ?_, result_files_perm hperm⟩
  intro k fd1 fd2 hl1 hl2
  rcases hev.2.2.2 k fd1 hl1 with ⟨fd2x, hl2x, hch⟩
  rw [hl2] at hl2x
  obtain rfl : fd2x = fd2 := (Option.some.inj hl2x).symm
  rcases result_aggFacts hl1 with ⟨_, hraw1, hcomp1⟩
  rcases result_aggFacts hl2 with ⟨_, hraw2, hcomp2⟩
  have hlen : (parseZipAsTree l1).folderMap.length =
      (parseZipAsTree l2).folderMap.length := equivPerm_length hev
  refine ⟨hch, ?_, ?_⟩
  · rw [hraw1, hraw2, hlen, sumItems_congr_perm hev _ hch]
  · rw [hcomp1, hcomp2, hlen, sumItems_congr_perm hev _ hch]

/-- Entry "p/a.txt" used to instantiate claim C4. -/
def c4p : RawEntry :=
  ⟨false, "a.txt", "p/a.txt", some ⟨1, 1⟩⟩

/-- Entry "q/b.txt" used to instantiate claim C4. -/
def c4q : RawEntry :=
  ⟨false, "b.txt", "q/b.txt", some ⟨1, 1⟩⟩

/-- Witness for the amended claim C4 at a concrete permutation. -/
theorem spec_C4_witness :
    (("p" : String) ∈ keysOf (parseZipAsTree [c4p, c4q]).folderMap ↔
      ("p" : String) ∈ keysOf (parseZipAsTree [c4q, c4p]).folderMap) ∧
    ((⟨true, [Node.file ⟨"a.txt", "p/a.txt", some 1, some 1⟩], "p", "p",
        some 1, some 1⟩ : FolderData).children.Perm
      (⟨true, [Node.file ⟨"a.txt", "p/a.txt", some 1, some 1⟩], "p", "p",
        some 1, some 1⟩ : FolderData).children) ∧
    (parseZipAsTree [c4p, c4q]).files.Perm (parseZipAsTree [c4q, c4p]).files := by
  have h := spec_C4_structure_perm (List.Perm.swap c4q c4p [])
  exact ⟨h.1 "p",
    (h.2.1 "p"
      ⟨true, [Node.file ⟨"a.txt", "p/a.txt", some 1, some 1⟩], "p", "p",
        some 1, some 1⟩
      ⟨true, [Node.file ⟨"a.txt", "p/a.txt", some 1, some 1⟩], "p", "p",
        some 1, some 1⟩ (by decide) (by decide)).1,
    h.2.2⟩

/-- File entry with an empty path used for claim C6. -/
def c6empty : RawEntry :=
  ⟨false, "", "", some ⟨1, 1⟩⟩

/-- Directory entry whose path is only the separator, used for claim C6. -/
def c6slash : RawEntry :=
  ⟨true, "", "/", none⟩

/-- Ordinary entry used for claim C6. -/
def c6norm : RawEntry :=
  ⟨false, "n.txt", "n.txt", some ⟨2, 2⟩⟩

/-- Claim C6 counterexample: entries whose path is empty or a bare "/" are
not skipped — the empty-path file lands in the roots and in `fileMap` under
the empty key, and the "/" directory creates a `folderMap` entry under the
empty key whose empty-named synthesized node becomes a root. -/
theorem spec_C6_counterexample :
    (parseZipAsTree [c6empty]).files ≠ [] ∧
    lookupA (parseZipAsTree [c6empty]).fileMap "" ≠ none ∧
    lookupA (parseZipAsTree [c6slash]).folderMap "" ≠ none ∧
    Node.folder "" ∈ (parseZipAsTree [c6slash]).files := by
  decide

/-- Claim C6 (amended): such entries are processed like any others — the
empty-path file is pushed to the roots and recorded in `fileMap` under the
empty key; the bare "/" entry is attached as child of a synthesized folder
registered under the empty key, whose empty-named node becomes a root; the
remaining entries are still processed normally. -/
theorem spec_C6_empty_paths_kept :
    parseZipAsTree [c6empty, c6slash, c6norm] =
      { files := [Node.folder "",
          Node.file ⟨"", "", some 1, some 1⟩,
          Node.file ⟨"n.txt", "n.txt", some 2, some 2⟩]
        fileMap := [("", Node.file ⟨"", "", some 1, some 1⟩),
          ("n.txt", Node.file ⟨"n.txt", "n.txt", some 2, some 2⟩)]
        folderMap := [("",
          ⟨true, [Node.dirEntry c6slash], "", "", some 0, some 0⟩)] } := by
  decide

/-- File entry "x/y.txt" used for claim C7. -/
def c7y : RawEntry :=
  ⟨false, "y.txt", "x/y.txt", some ⟨5, 3⟩⟩

/-- Root file entry "x" (same path as the directory) used for claim C7. -/
def c7x : RawEntry :=
  ⟨false, "x", "x", some ⟨7, 6⟩⟩

/-- Claim C7 counterexample: the key sets are not disjoint ("x" is a key of
both maps) and not exhaustive (the file entry "x/y.txt", being the first
child discovered in a not-yet-registered folder, is absent from
`fileMap`). -/
theorem spec_C7_counterexample :
    lookupA (parseZipAsTree [c7y, c7x]).fileMap "x" ≠ none ∧
    lookupA (parseZipAsTree [c7y, c7x]).folderMap "x" ≠ none ∧
    lookupA (parseZipAsTree [c7y, c7x]).fileMap "x/y.txt" = none := by
  decide

/-- Claim C7 (amended): each map binds every key at most once, every root
file entry appears in `fileMap` under its full path, and every entry with a
non-empty parent path has that parent (trailing separator stripped)
registered in `folderMap`; but the two key sets may intersect, and a file
entry whose parent folder did not yet exist when it was processed is missing
from `fileMap`. -/
theorem spec_C7_key_coverage (zipEntries : List RawEntry) :
    (keysOf (parseZipAsTree zipEntries).fileMap).Nodup ∧
    (keysOf (parseZipAsTree zipEntries).folderMap).Nodup ∧
    (∀ en ∈ zipEntries, en.isDirectory = false →
      parentSegs en.entryName = [] →
      en.entryName ∈ keysOf (parseZipAsTree zipEntries).fileMap) ∧
    ∀ en ∈ zipEntries, parentSegs en.entryName ≠ [] →
      parentKey en.entryName ∈ keysOf (parseZipAsTree zipEntries).folderMap := by
  refine ⟨result_nodup_fileMap zipEntries, result_nodup_folderMap zipEntries,
    ?_, ?_⟩
  · intro en hen hd hseg
    exact result_root_file hen hd hseg
  · intro en hen hseg
    exact result_parent_key hen hseg

/-- Witness for the amended claim C7 at a concrete input. -/
theorem spec_C7_witness :
    ("x" : String) ∈ keysOf (parseZipAsTree [c7y, c7x]).fileMap ∧
    ("x" : String) ∈ keysOf (parseZipAsTree [c7y, c7x]).folderMap := by
  constructor
  · exact (spec_C7_key_coverage [c7y, c7x]).2.2.1 c7x (by decide) (by decide)
      (by decide)
  · have h := (spec_C7_key_coverage [c7y, c7x]).2.2.2 c7y (by decide)
      (by decide)
    rwa [(by decide : parentKey c7y.entryName = "x")] at h

/-- File entry "d/f.txt" used for claim C8. -/
def c8f : RawEntry :=
  ⟨false, "f.txt", "d/f.txt", some ⟨4, 2⟩⟩

/-- Root file entry "d" colliding with the directory path, for claim C8. -/
def c8d : RawEntry :=
  ⟨false, "d", "d", some ⟨9, 8⟩⟩

/-- Claim C8 counterexample: a file entry whose path equals a path already
claimed as a directory is not dropped — it is registered in `fileMap` and in
the roots while "d" is simultaneously a `folderMap` key, and the result
carries no diagnostic of the conflict. -/
theorem spec_C8_counterexample :
    lookupA (parseZipAsTree [c8f, c8d]).folderMap "d" ≠ none ∧
    lookupA (parseZipAsTree [c8f, c8d]).fileMap "d" =
      some (Node.file ⟨"d", "d", some 9, some 8⟩) := by
  decide

/-- Claim C8 (amended): the colliding file entry is kept alongside the
directory — it is recorded in `fileMap` under "d", pushed into the root
sequence, and "d" stays a `folderMap` key; nothing is surfaced to the caller
(the result carries only `files`, `fileMap`, `folderMap`). -/
theorem spec_C8_collision_kept :
    Node.file ⟨"d", "d", some 9, some 8⟩ ∈ (parseZipAsTree [c8f, c8d]).files ∧
    lookupA (parseZipAsTree [c8f, c8d]).fileMap "d" ≠ none ∧
    lookupA (parseZipAsTree [c8f, c8d]).folderMap "d" =
      some ⟨true, [Node.file ⟨"f.txt", "d/f.txt", some 4, some 2⟩],
        "d", "d", some 4, some 2⟩ := by
  decide
